/-
Verification of the KTBR face-redaction pipeline and its queue manager.

The Lean definitions below are a shallow embedding of the Python sources:
  src/utils/tracking.py      (calculate_iou, FaceTrack, FaceTracker)
  src/processors/face_blur.py (apply_elliptical_blur, blur_faces_in_video)
  src/utils/queue_manager.py  (add_to_queue, remove_from_queue, cooldowns)
  src/handlers/video.py       (handle_video admission control)

Modelling conventions:
  - Python floats are idealised as exact arithmetic (ℚ for values the code
    computes, ℝ for values involving square roots).  math-level square roots
    are kept symbolic: a comparison `sqrt d < m` from the source is embedded
    as the equivalent rational test `0 < m ∧ d < m ^ 2`, and each such
    encoding is justified by a bridging lemma over ℝ.
  - External OpenCV calls (the KCF visual tracker, GaussianBlur, ellipse
    rendering) are modelled as oracles passed in as function arguments; the
    claims proved here hold for every oracle.
  - Machine integers do not overflow in the source's ranges; pixel
    coordinates are ℤ, counters are ℕ.
-/
import Mathlib

namespace KTBR

/-- Axis-aligned box `[x, y, w, h]` as used throughout tracking.py. -/
structure Box where
  x : ℤ
  y : ℤ
  w : ℤ
  h : ℤ
deriving DecidableEq

/-- Port of `calculate_iou(box1, box2)` (tracking.py lines 9-30).
Intersection-over-Union of two `[x, y, w, h]` boxes; 0 for disjoint or
degenerate boxes.  The float division is idealised as exact division in ℚ. -/
def calculate_iou (box1 box2 : Box) : ℚ :=
  let xa1 := box1.x
  let ya1 := box1.y
  let xa2 := box1.x + box1.w
  let ya2 := box1.y + box1.h
  let xb1 := box2.x
  let yb1 := box2.y
  let xb2 := box2.x + box2.w
  let yb2 := box2.y + box2.h
  let inter_x1 := max xa1 xb1
  let inter_y1 := max ya1 yb1
  let inter_x2 := min xa2 xb2
  let inter_y2 := min ya2 yb2
  if inter_x2 ≤ inter_x1 ∨ inter_y2 ≤ inter_y1 then 0
  else
    let inter_area := (inter_x2 - inter_x1) * (inter_y2 - inter_y1)
    let area1 := box1.w * box1.h
    let area2 := box2.w * box2.h
    let union_area := area1 + area2 - inter_area
    if 0 < union_area then (inter_area : ℚ) / (union_area : ℚ) else 0

/-- Centre of a box, as in `FaceTracker._get_center` (tracking.py 95-97). -/
def get_center (b : Box) : ℚ × ℚ :=
  ((b.x : ℚ) + (b.w : ℚ) / 2, (b.y : ℚ) + (b.h : ℚ) / 2)

/-- Squared Euclidean distance between the centres of two boxes.
`FaceTracker._get_distance` (tracking.py 99-102) returns the square root of
this; the algorithm below only ever compares distances, so the square root
is kept symbolic and every comparison is restated on the squares (each
restatement is justified by a bridging lemma over ℝ). -/
def distSq (b1 b2 : Box) : ℚ :=
  let c1 := get_center b1
  let c2 := get_center b2
  (c1.1 - c2.1) ^ 2 + (c1.2 - c2.2) ^ 2

/-- `FaceTracker.iou_threshold` (tracking.py line 92). -/
def iou_threshold : ℚ := 15 / 100

/-- `FaceTracker.distance_threshold_ratio` (tracking.py line 93). -/
def distance_threshold_ratio : ℚ := 3 / 2

/-- Exact value of a candidate score computed in `FaceTracker.update`
(tracking.py 110-133).  `negOne` is the loop's initial `best_score = -1`;
`iouScore v` stands for the float `v + 1` of the IoU branch; `distScore d2 md`
stands for the float `1 - sqrt d2 / md` of the distance branch (`d2` is the
squared centre distance, `md` the `max_distance` bound). -/
inductive Score where
  | negOne : Score
  | iouScore (v : ℚ) : Score
  | distScore (d2 md : ℚ) : Score
deriving DecidableEq

/-- The real number a `Score` stands for. -/
noncomputable def scoreVal : Score → ℝ
  | .negOne => -1
  | .iouScore v => (v : ℝ) + 1
  | .distScore d2 md => 1 - Real.sqrt (d2 : ℝ) / (md : ℝ)

/-- Well-formedness of the scores the algorithm actually constructs: a
distance score always has a nonnegative squared distance and a strictly
positive distance bound. -/
def ScoreWF : Score → Prop
  | .negOne => True
  | .iouScore _ => True
  | .distScore d2 md => 0 ≤ d2 ∧ 0 < md

/-- Decidable strict comparison of scores, `scoreLt s t` meaning the float
comparison `s < t` of `FaceTracker.update`.  Each case is the square-root
free restatement of `scoreVal s < scoreVal t` (see `scoreLt_iff_val`). -/
def scoreLt : Score → Score → Bool
  | .negOne, .negOne => false
  | .negOne, .iouScore v => decide (-2 < v)
  | .negOne, .distScore d2 md => decide (d2 < 4 * md ^ 2)
  | .iouScore v, .negOne => decide (v < -2)
  | .iouScore v, .iouScore w => decide (v < w)
  | .iouScore v, .distScore d2 md =>
      decide (v < 0 ∧ d2 < v ^ 2 * md ^ 2)
  | .distScore d2 md, .negOne => decide (4 * md ^ 2 < d2)
  | .distScore d2 md, .iouScore v =>
      if 0 ≤ v then decide (0 < v ∨ 0 < d2) else decide (v ^ 2 * md ^ 2 < d2)
  | .distScore d2 md, .distScore e2 me => decide (e2 * md ^ 2 < d2 * me ^ 2)

/-- Per-detection score of `FaceTracker.update`'s inner loop (tracking.py
118-133): a detection whose IoU with the track box reaches the threshold is
scored `IoU + 1`; otherwise it is scored by centre distance provided that
distance is below `max_distance = avg_size * distance_threshold_ratio`, and
is ineligible when neither test passes.  The source's float comparison
`distance < max_distance` is embedded as `0 < md ∧ d2 < md ^ 2`
(justified by `sqrt_lt_cond`). -/
def detScore (trackBox det : Box) : Option Score :=
  let iou := calculate_iou trackBox det
  if iou_threshold ≤ iou then
    some (.iouScore iou)
  else
    let avg_size := ((trackBox.w : ℚ) + trackBox.h + det.w + det.h) / 4
    let md := avg_size * distance_threshold_ratio
    let d2 := distSq trackBox det
    if 0 < md ∧ d2 < md ^ 2 then some (.distScore d2 md) else none

/-- Justification for encoding the source's `distance < max_distance` test
on squares: for a nonnegative squared distance `d`, `sqrt d < m` is exactly
`0 < m ∧ d < m ^ 2`. -/
theorem sqrt_lt_cond (d m : ℝ) (hd : 0 ≤ d) :
    Real.sqrt d < m ↔ 0 < m ∧ d < m ^ 2 := by
  constructor
  · intro h
    have hm : 0 < m := lt_of_le_of_lt (Real.sqrt_nonneg d) h
    exact ⟨hm, (Real.sqrt_lt' hm).mp h⟩
  · rintro ⟨hm, hlt⟩
    exact (Real.sqrt_lt' hm).mpr hlt

/-- Helper: comparison of two square-root quotients restated on squares. -/
theorem sqrt_div_lt_sqrt_div (d2 md e2 me : ℝ)
    (hd2 : 0 ≤ d2) (hmd : 0 < md) (he2 : 0 ≤ e2) (hme : 0 < me) :
    Real.sqrt e2 / me < Real.sqrt d2 / md ↔ e2 * md ^ 2 < d2 * me ^ 2 := by
  rw [div_lt_div_iff hme hmd]
  have h1 : Real.sqrt e2 * md = Real.sqrt (e2 * md ^ 2) := by
    rw [Real.sqrt_mul he2, Real.sqrt_sq hmd.le]
  have h2 : Real.sqrt d2 * me = Real.sqrt (d2 * me ^ 2) := by
    rw [Real.sqrt_mul hd2, Real.sqrt_sq hme.le]
  rw [h1, h2]
  exact Real.sqrt_lt_sqrt_iff (by positivity)

/-- The decidable comparison `scoreLt` agrees with the real comparison of
the scores' values, for the well-formed scores the algorithm constructs. -/
theorem scoreLt_iff_val (s t : Score) (hs : ScoreWF s) (ht : ScoreWF t) :
    scoreLt s t = true ↔ scoreVal s < scoreVal t := by
  cases s with
  | negOne =>
    cases t with
    | negOne => simp [scoreLt, scoreVal]
    | iouScore w =>
      simp only [scoreLt, scoreVal, decide_eq_true_eq]
      constructor
      · intro h
        have : (-2 : ℝ) < (w : ℚ) := by exact_mod_cast h
        linarith
      · intro h
        have : (-2 : ℝ) < (w : ℚ) := by linarith
        exact_mod_cast this
    | distScore d2 md =>
      obtain ⟨hd2, hmd⟩ := ht
      have hd2' : (0 : ℝ) ≤ (d2 : ℚ) := by exact_mod_cast hd2
      have hmd' : (0 : ℝ) < (md : ℚ) := by exact_mod_cast hmd
      simp only [scoreLt, scoreVal, decide_eq_true_eq]
      have hdiv : Real.sqrt (d2 : ℚ) / (md : ℚ) < 2 ↔
          Real.sqrt (d2 : ℚ) < 2 * (md : ℚ) := div_lt_iff₀ hmd'
      have key : ((-1 : ℝ) < 1 - Real.sqrt (d2 : ℚ) / (md : ℚ)) ↔
          Real.sqrt (d2 : ℚ) < 2 * (md : ℚ) := by
        constructor
        · intro h
          exact hdiv.mp (by linarith)
        · intro h
          have := hdiv.mpr h
          linarith
      rw [key, Real.sqrt_lt' (by linarith)]
      constructor
      · intro h
        have : ((d2 : ℚ) : ℝ) < ((4 * md ^ 2 : ℚ) : ℝ) := by exact_mod_cast h
        push_cast at this
        nlinarith
      · intro h
        have : ((d2 : ℚ) : ℝ) < ((4 * md ^ 2 : ℚ) : ℝ) := by push_cast; nlinarith
        exact_mod_cast this
  | iouScore v =>
    cases t with
    | negOne =>
      simp only [scoreLt, scoreVal, decide_eq_true_eq]
      constructor
      · intro h
        have : ((v : ℚ) : ℝ) < -2 := by exact_mod_cast h
        linarith
      · intro h
        have : ((v : ℚ) : ℝ) < -2 := by linarith
        exact_mod_cast this
    | iouScore w =>
      simp only [scoreLt, scoreVal, decide_eq_true_eq]
      constructor
      · intro h
        have : ((v : ℚ) : ℝ) < (w : ℚ) := by exact_mod_cast h
        linarith
      · intro h
        have : ((v : ℚ) : ℝ) < (w : ℚ) := by linarith
        exact_mod_cast this
    | distScore d2 md =>
      obtain ⟨hd2, hmd⟩ := ht
      have hd2' : (0 : ℝ) ≤ (d2 : ℚ) := by exact_mod_cast hd2
      have hmd' : (0 : ℝ) < (md : ℚ) := by exact_mod_cast hmd
      simp only [scoreLt, scoreVal, decide_eq_true_eq]
      have hdiv : Real.sqrt (d2 : ℚ) / (md : ℚ) < -((v : ℚ) : ℝ) ↔
          Real.sqrt (d2 : ℚ) < -((v : ℚ) : ℝ) * (md : ℚ) := div_lt_iff₀ hmd'
      have key : (((v : ℚ) : ℝ) + 1 < 1 - Real.sqrt (d2 : ℚ) / (md : ℚ)) ↔
          Real.sqrt (d2 : ℚ) < -((v : ℚ) : ℝ) * (md : ℚ) := by
        constructor
        · intro h
          exact hdiv.mp (by linarith)
        · intro h
          have := hdiv.mpr h
          linarith
      rw [key]
      constructor
      · intro h
        obtain ⟨hv, hlt⟩ := h
        have hv' : ((v : ℚ) : ℝ) < 0 := by exact_mod_cast hv
        have hpos : (0 : ℝ) < -((v : ℚ) : ℝ) * (md : ℚ) := by nlinarith
        rw [Real.sqrt_lt' hpos]
        have : ((d2 : ℚ) : ℝ) < ((v ^ 2 * md ^ 2 : ℚ) : ℝ) := by exact_mod_cast hlt
        push_cast at this
        nlinarith
      · intro h
        have hneg : ((v : ℚ) : ℝ) < 0 := by
          by_contra hge
          push_neg at hge
          have hle : -((v : ℚ) : ℝ) * (md : ℚ) ≤ 0 := by nlinarith
          linarith [Real.sqrt_nonneg ((d2 : ℚ) : ℝ), lt_of_lt_of_le h hle]
        have hv : v < 0 := by exact_mod_cast hneg
        refine ⟨hv, ?_⟩
        have hpos : (0 : ℝ) < -((v : ℚ) : ℝ) * (md : ℚ) := by nlinarith
        rw [Real.sqrt_lt' hpos] at h
        have : ((d2 : ℚ) : ℝ) < ((v ^ 2 * md ^ 2 : ℚ) : ℝ) := by push_cast; nlinarith
        exact_mod_cast this
  | distScore d2 md =>
    obtain ⟨hd2, hmd⟩ := hs
    have hd2' : (0 : ℝ) ≤ (d2 : ℚ) := by exact_mod_cast hd2
    have hmd' : (0 : ℝ) < (md : ℚ) := by exact_mod_cast hmd
    cases t with
    | negOne =>
      simp only [scoreLt, scoreVal, decide_eq_true_eq]
      have key : (1 - Real.sqrt (d2 : ℚ) / (md : ℚ) < -1) ↔
          2 * (md : ℚ) < Real.sqrt (d2 : ℚ) := by
        constructor
        · intro h
          have h2 : (2 : ℝ) < Real.sqrt (d2 : ℚ) / (md : ℚ) := by linarith
          have := (lt_div_iff hmd').mp h2
          linarith [this]
        · intro h
          have h2 : (2 : ℝ) < Real.sqrt (d2 : ℚ) / (md : ℚ) := by
            rw [lt_div_iff hmd']; linarith
          linarith
      rw [key, Real.lt_sqrt (by linarith)]
      constructor
      · intro h
        have : ((4 * md ^ 2 : ℚ) : ℝ) < ((d2 : ℚ) : ℝ) := by exact_mod_cast h
        push_cast at this
        nlinarith
      · intro h
        have : ((4 * md ^ 2 : ℚ) : ℝ) < ((d2 : ℚ) : ℝ) := by push_cast; nlinarith
        exact_mod_cast this
    | iouScore v =>
      simp only [scoreLt, scoreVal]
      have hdiv : -((v : ℚ) : ℝ) < Real.sqrt (d2 : ℚ) / (md : ℚ) ↔
          -((v : ℚ) : ℝ) * (md : ℚ) < Real.sqrt (d2 : ℚ) := lt_div_iff₀ hmd'
      have key : (1 - Real.sqrt (d2 : ℚ) / (md : ℚ) < ((v : ℚ) : ℝ) + 1) ↔
          -((v : ℚ) : ℝ) * (md : ℚ) < Real.sqrt (d2 : ℚ) := by
        constructor
        · intro h
          exact hdiv.mp (by linarith)
        · intro h
          have := hdiv.mpr h
          linarith
      by_cases hv : 0 ≤ v
      · simp only [hv, if_pos, decide_eq_true_eq]
        have hv' : (0 : ℝ) ≤ ((v : ℚ) : ℝ) := by exact_mod_cast hv
        rw [key]
        constructor
        · intro h
          rcases h with h | h
          · have : (0 : ℝ) < ((v : ℚ) : ℝ) := by exact_mod_cast h
            calc -((v : ℚ) : ℝ) * (md : ℚ) < 0 := by nlinarith
              _ ≤ Real.sqrt (d2 : ℚ) := Real.sqrt_nonneg _
          · have hpos : (0 : ℝ) < ((d2 : ℚ) : ℝ) := by exact_mod_cast h
            calc -((v : ℚ) : ℝ) * (md : ℚ) ≤ 0 := by nlinarith
              _ < Real.sqrt (d2 : ℚ) := Real.sqrt_pos.mpr hpos
        · intro h
          by_contra hcon
          push_neg at hcon
          obtain ⟨hv0, hd0⟩ := hcon
          have hveq : v = 0 := le_antisymm hv0 hv
          have hdeq : d2 = 0 := le_antisymm hd0 hd2
          subst hveq hdeq
          push_cast at h
          simp [Real.sqrt_zero] at h
      · rw [if_neg hv, decide_eq_true_eq]
        push_neg at hv
        have hv' : ((v : ℚ) : ℝ) < 0 := by exact_mod_cast hv
        rw [key]
        have hpos : (0 : ℝ) ≤ -((v : ℚ) : ℝ) * (md : ℚ) := by nlinarith
        rw [Real.lt_sqrt hpos]
        constructor
        · intro h
          have : ((v ^ 2 * md ^ 2 : ℚ) : ℝ) < ((d2 : ℚ) : ℝ) := by exact_mod_cast h
          push_cast at this
          nlinarith
        · intro h
          have : ((v ^ 2 * md ^ 2 : ℚ) : ℝ) < ((d2 : ℚ) : ℝ) := by push_cast; nlinarith
          exact_mod_cast this
    | distScore e2 me =>
      obtain ⟨he2, hme⟩ := ht
      have he2' : (0 : ℝ) ≤ (e2 : ℚ) := by exact_mod_cast he2
      have hme' : (0 : ℝ) < (me : ℚ) := by exact_mod_cast hme
      simp only [scoreLt, scoreVal, decide_eq_true_eq]
      have key : (1 - Real.sqrt (d2 : ℚ) / (md : ℚ) < 1 - Real.sqrt (e2 : ℚ) / (me : ℚ)) ↔
          Real.sqrt (e2 : ℚ) / (me : ℚ) < Real.sqrt (d2 : ℚ) / (md : ℚ) := by
        constructor <;> intro h <;> linarith
      rw [key, sqrt_div_lt_sqrt_div _ _ _ _ hd2' hmd' he2' hme']
      constructor
      · intro h
        have : ((e2 * md ^ 2 : ℚ) : ℝ) < ((d2 * me ^ 2 : ℚ) : ℝ) := by exact_mod_cast h
        push_cast at this
        push_cast
        linarith
      · intro h
        have : ((e2 * md ^ 2 : ℚ) : ℝ) < ((d2 * me ^ 2 : ℚ) : ℝ) := by push_cast at *; linarith
        exact_mod_cast this

/-- Inversion: an IoU-path score comes with its threshold eligibility. -/
theorem detScore_iouScore_inv (tb d : Box) (v : ℚ)
    (h : detScore tb d = some (.iouScore v)) :
    v = calculate_iou tb d ∧ iou_threshold ≤ v := by
  simp only [detScore] at h
  split at h
  · rename_i hthr
    rw [Option.some.injEq, Score.iouScore.injEq] at h
    exact ⟨h.symm, h ▸ hthr⟩
  · split at h <;> simp at h

/-- Inversion: a distance-path score satisfies the eligibility bounds the
source checks (`distance < max_distance`, restated on squares). -/
theorem detScore_distScore_inv (tb d : Box) (d2 md : ℚ)
    (h : detScore tb d = some (.distScore d2 md)) :
    0 ≤ d2 ∧ 0 < md ∧ d2 < md ^ 2 := by
  simp only [detScore] at h
  split at h
  · simp at h
  · split at h
    · rename_i hcond
      rw [Option.some.injEq, Score.distScore.injEq] at h
      obtain ⟨h1, h2⟩ := h
      refine ⟨?_, h2 ▸ hcond.1, h2 ▸ h1 ▸ hcond.2⟩
      rw [← h1]
      unfold distSq
      positivity
    · simp at h

/-- Any score produced by `detScore` is well-formed. -/
theorem detScore_wf (tb d : Box) (s : Score) (h : detScore tb d = some s) :
    ScoreWF s := by
  cases s with
  | negOne => trivial
  | iouScore v => trivial
  | distScore d2 md =>
    obtain ⟨h1, h2, _⟩ := detScore_distScore_inv tb d d2 md h
    exact ⟨h1, h2⟩

/-- Any score produced by `detScore` beats the loop's initial
`best_score = -1`, so the first eligible detection always replaces the
initial sentinel, as in the source. -/
theorem detScore_gt_negOne (tb d : Box) (s : Score)
    (h : detScore tb d = some s) : scoreLt .negOne s = true := by
  cases s with
  | negOne =>
    exfalso
    simp only [detScore] at h
    split at h
    · simp at h
    · split at h <;> simp at h
  | iouScore v =>
    obtain ⟨_, hthr⟩ := detScore_iouScore_inv tb d v h
    simp only [scoreLt, decide_eq_true_eq]
    have : (0 : ℚ) ≤ v := le_trans (by norm_num [iou_threshold]) hthr
    linarith
  | distScore d2 md =>
    obtain ⟨hd2, hmd, hlt⟩ := detScore_distScore_inv tb d d2 md h
    simp only [scoreLt, decide_eq_true_eq]
    nlinarith

/-- C5: in `FaceTracker.update`'s per-track scoring, every IoU-path score
(`IoU + 1` with IoU at least the 0.15 threshold) is strictly higher than
every distance-path score (`1 − distance/max_distance` with
`distance < max_distance`), both as real score values and under the
algorithm's own comparison, so an IoU-eligible detection always outranks a
detection that is only distance-eligible. -/
theorem iou_path_outranks_distance_path (tb det det' : Box) (v d2 md : ℚ)
    (h1 : detScore tb det = some (.iouScore v))
    (h2 : detScore tb det' = some (.distScore d2 md)) :
    scoreVal (.distScore d2 md) < scoreVal (.iouScore v) ∧
    scoreLt (.distScore d2 md) (.iouScore v) = true ∧
    scoreLt (.iouScore v) (.distScore d2 md) = false := by
  obtain ⟨_, hthr⟩ := detScore_iouScore_inv tb det v h1
  obtain ⟨hd2, hmd, _⟩ := detScore_distScore_inv tb det' d2 md h2
  have hv0 : (0 : ℚ) < v := lt_of_lt_of_le (by norm_num [iou_threshold]) hthr
  have hv0' : (0 : ℝ) < ((v : ℚ) : ℝ) := by exact_mod_cast hv0
  have hmd' : (0 : ℝ) < ((md : ℚ) : ℝ) := by exact_mod_cast hmd
  have hd2' : (0 : ℝ) ≤ ((d2 : ℚ) : ℝ) := by exact_mod_cast hd2
  refine ⟨?_, ?_, ?_⟩
  · simp only [scoreVal]
    have hq : 0 ≤ Real.sqrt (d2 : ℚ) / (md : ℚ) :=
      div_nonneg (Real.sqrt_nonneg _) hmd'.le
    linarith
  · simp only [scoreLt]
    rw [if_pos hv0.le, decide_eq_true_eq]
    exact Or.inl hv0
  · simp only [scoreLt, decide_eq_false_iff_not]
    rintro ⟨hneg, -⟩
    exact absurd hneg (not_lt.mpr hv0.le)

/-- Witness for C5, on the spec's own example: track box `(100,100,50,50)`,
overlapping detection `(105,100,50,50)` (IoU ≈ 0.82, IoU path) and a
non-overlapping decoy `(160,100,50,50)` (distance path). -/
theorem iou_path_outranks_distance_path_witness :
    detScore ⟨100, 100, 50, 50⟩ ⟨105, 100, 50, 50⟩ =
      some (.iouScore (9 / 11)) ∧
    detScore ⟨100, 100, 50, 50⟩ ⟨160, 100, 50, 50⟩ =
      some (.distScore 3600 75) ∧
    scoreLt (.distScore 3600 75) (.iouScore (9 / 11)) = true ∧
    scoreLt (.iouScore (9 / 11)) (.distScore 3600 75) = false := by
  have h1 : detScore ⟨100, 100, 50, 50⟩ ⟨105, 100, 50, 50⟩ =
      some (.iouScore (9 / 11)) := by
    norm_num [detScore, calculate_iou, distSq, get_center, iou_threshold,
      distance_threshold_ratio]
  have h2 : detScore ⟨100, 100, 50, 50⟩ ⟨160, 100, 50, 50⟩ =
      some (.distScore 3600 75) := by
    norm_num [detScore, calculate_iou, distSq, get_center, iou_threshold,
      distance_threshold_ratio]
  have h3 := iou_path_outranks_distance_path ⟨100, 100, 50, 50⟩
    ⟨105, 100, 50, 50⟩ ⟨160, 100, 50, 50⟩ (9 / 11) 3600 75 h1 h2
  exact ⟨h1, h2, h3.2.1, h3.2.2⟩

/-- Inner loop of `FaceTracker.update`'s matching phase (tracking.py
110-133): scan the detections in index order, skip the ones already
claimed (`used`), score the rest with `detScore`, and keep the first
strictly-best candidate.  `acc` is the running `(best_score, best_det_idx)`
pair, starting at `(-1, -1)` in the source (here `(.negOne, none)`). -/
def bestLoop (tb : Box) (used : List ℕ) :
    Score × Option ℕ → ℕ → List Box → Score × Option ℕ
  | acc, _, [] => acc
  | acc, i, d :: ds =>
    bestLoop tb used
      (if i ∈ used then acc
       else
         match detScore tb d with
         | none => acc
         | some s => if scoreLt acc.1 s then (s, some i) else acc)
      (i + 1) ds

/-- The detection index chosen for one track by the matching loop
(`best_det_idx` if it ended `≥ 0`, else no match). -/
def bestMatch (tb : Box) (dets : List Box) (used : List ℕ) : Option ℕ :=
  (bestLoop tb used (.negOne, none) 0 dets).2

/-- Score of detection `j` against a track box, `none` when `j` is out of
range or the detection is ineligible. -/
def scoreAt (tb : Box) (dets : List Box) (j : ℕ) : Option Score :=
  match dets[j]? with
  | some d => detScore tb d
  | none => none

/-- Detection `j` is a live candidate for the current track: not yet
claimed by an earlier track and eligible with score `s`. -/
def Cand (tb : Box) (dets : List Box) (used : List ℕ) (j : ℕ) (s : Score) :
    Prop :=
  j ∉ used ∧ scoreAt tb dets j = some s

/-- Loop invariant for `bestLoop` after the first `n` detections have been
scanned: an empty accumulator means no candidate was seen, and a filled one
holds the first index attaining the maximal score seen so far. -/
def LoopInv (tb : Box) (dets : List Box) (used : List ℕ)
    (acc : Score × Option ℕ) (n : ℕ) : Prop :=
  (acc.2 = none → acc.1 = .negOne ∧ ∀ j s, j < n → ¬ Cand tb dets used j s) ∧
  (∀ i, acc.2 = some i →
    i < n ∧ Cand tb dets used i acc.1 ∧
    (∀ j s, j < n → Cand tb dets used j s → scoreVal s ≤ scoreVal acc.1) ∧
    (∀ j s, j < i → Cand tb dets used j s → scoreVal s < scoreVal acc.1))

/-- The loop invariant is preserved by a full scan of the remaining
detections. -/
theorem bestLoop_inv (tb : Box) (dets : List Box) (used : List ℕ) :
    ∀ (ds : List Box) (n : ℕ) (acc : Score × Option ℕ),
      dets.drop n = ds → ScoreWF acc.1 → LoopInv tb dets used acc n →
      ScoreWF (bestLoop tb used acc n ds).1 ∧
      LoopInv tb dets used (bestLoop tb used acc n ds) (n + ds.length) := by
  intro ds
  induction ds with
  | nil =>
    intro n acc _ hwf hinv
    simpa [bestLoop] using ⟨hwf, hinv⟩
  | cons d ds ih =>
    intro n acc hdrop hwf hinv
    have hget : dets[n]? = some d := by
      have := List.getElem?_drop dets n 0
      rw [hdrop] at this
      simpa using this.symm
    have hdrop' : dets.drop (n + 1) = ds := by
      have h := List.drop_drop 1 n dets
      rw [← h, hdrop]
      rfl
    have hscore : scoreAt tb dets n = detScore tb d := by
      simp [scoreAt, hget]
    simp only [bestLoop]
    have hstep :
        ∀ acc', (acc' = if n ∈ used then acc
            else match detScore tb d with
              | none => acc
              | some s => if scoreLt acc.1 s then (s, some n) else acc) →
          ScoreWF acc'.1 ∧ LoopInv tb dets used acc' (n + 1) := by
      intro acc' hacc'
      by_cases hu : n ∈ used
      · rw [if_pos hu] at hacc'
        subst hacc'
        refine ⟨hwf, ?_, ?_⟩
        · intro hnone
          obtain ⟨h1, h2⟩ := hinv.1 hnone
          refine ⟨h1, ?_⟩
          intro j s hj hc
          rcases Nat.lt_succ_iff_lt_or_eq.mp hj with hj' | hj'
          · exact h2 j s hj' hc
          · exact hc.1 (hj' ▸ hu)
        · intro i hi
          obtain ⟨h1, h2, h3, h4⟩ := hinv.2 i hi
          refine ⟨Nat.lt_succ_of_lt h1, h2, ?_, h4⟩
          intro j s hj hc
          rcases Nat.lt_succ_iff_lt_or_eq.mp hj with hj' | hj'
          · exact h3 j s hj' hc
          · exact absurd (hj' ▸ hc.1) (by simpa using hu)
      · rw [if_neg hu] at hacc'
        cases hds : detScore tb d with
        | none =>
          rw [hds] at hacc'
          replace hacc' : acc' = acc := hacc'
          subst hacc'
          refine ⟨hwf, ?_, ?_⟩
          · intro hnone
            obtain ⟨h1, h2⟩ := hinv.1 hnone
            refine ⟨h1, ?_⟩
            intro j s hj hc
            rcases Nat.lt_succ_iff_lt_or_eq.mp hj with hj' | hj'
            · exact h2 j s hj' hc
            · rw [hj'] at hc
              have hcs := hc.2
              rw [hscore, hds] at hcs
              exact Option.noConfusion hcs
          · intro i hi
            obtain ⟨h1, h2, h3, h4⟩ := hinv.2 i hi
            refine ⟨Nat.lt_succ_of_lt h1, h2, ?_, h4⟩
            intro j s hj hc
            rcases Nat.lt_succ_iff_lt_or_eq.mp hj with hj' | hj'
            · exact h3 j s hj' hc
            · rw [hj'] at hc
              have hcs := hc.2
              rw [hscore, hds] at hcs
              exact Option.noConfusion hcs
        | some s =>
          rw [hds] at hacc'
          replace hacc' : acc' = if scoreLt acc.1 s then (s, some n) else acc :=
            hacc'
          have hwfs : ScoreWF s := detScore_wf tb d s hds
          have hcand : Cand tb dets used n s := ⟨hu, by rw [hscore, hds]⟩
          by_cases hlt : scoreLt acc.1 s
          · rw [if_pos hlt] at hacc'
            subst hacc'
            refine ⟨hwfs, ?_, ?_⟩
            · intro hnone
              simp at hnone
            · intro i hi
              simp only [Option.some.injEq] at hi
              subst hi
              refine ⟨Nat.lt_succ_self n, hcand, ?_, ?_⟩
              · intro j s' hj hc
                rcases Nat.lt_succ_iff_lt_or_eq.mp hj with hj' | hj'
                · cases hacc2 : acc.2 with
                  | none =>
                    exact absurd hc ((hinv.1 hacc2).2 j s' hj')
                  | some i' =>
                    obtain ⟨_, _, h3, _⟩ := hinv.2 i' hacc2
                    have hle := h3 j s' hj' hc
                    have hval := (scoreLt_iff_val acc.1 s hwf hwfs).mp hlt
                    exact le_of_lt (lt_of_le_of_lt hle hval)
                · have heq : s' = s := by
                    rw [hj'] at hc
                    have h5 := hc.2
                    rw [hcand.2] at h5
                    exact (Option.some_inj.mp h5).symm
                  rw [heq]
              · intro j s' hj hc
                cases hacc2 : acc.2 with
                | none =>
                  exact absurd hc ((hinv.1 hacc2).2 j s' hj)
                | some i' =>
                  obtain ⟨_, _, h3, _⟩ := hinv.2 i' hacc2
                  have hle := h3 j s' hj hc
                  have hval := (scoreLt_iff_val acc.1 s hwf hwfs).mp hlt
                  exact lt_of_le_of_lt hle hval
          · rw [if_neg hlt] at hacc'
            subst hacc'
            cases hacc2 : acc'.2 with
            | none =>
              exfalso
              have h1 := (hinv.1 hacc2).1
              have := detScore_gt_negOne tb d s hds
              rw [← h1] at this
              exact hlt (by simpa using this)
            | some i' =>
              obtain ⟨h1, h2, h3, h4⟩ := hinv.2 i' hacc2
              have hge : scoreVal s ≤ scoreVal acc'.1 := by
                have := (scoreLt_iff_val acc'.1 s hwf hwfs).not.mp
                  (by simpa using hlt)
                exact le_of_not_lt this
              refine ⟨hwf, ?_, ?_⟩
              · intro hnone
                rw [hacc2] at hnone
                simp at hnone
              · intro i hi
                rw [hacc2] at hi
                simp only [Option.some.injEq] at hi
                subst hi
                refine ⟨Nat.lt_succ_of_lt h1, h2, ?_, h4⟩
                intro j s' hj hc
                rcases Nat.lt_succ_iff_lt_or_eq.mp hj with hj' | hj'
                · exact h3 j s' hj' hc
                · have heq : s' = s := by
                    rw [hj'] at hc
                    have h5 := hc.2
                    rw [hcand.2] at h5
                    exact (Option.some_inj.mp h5).symm
                  rw [heq]
                  exact hge
    obtain ⟨hwf', hinv'⟩ := hstep _ rfl
    have := ih (n + 1) _ hdrop' hwf' hinv'
    have hlen : n + 1 + ds.length = n + (ds.length + 1) := by omega
    rw [hlen] at this
    exact this

/-- Characterisation of a successful match: the chosen index is in range,
unclaimed, eligible, of maximal score, and the earliest index attaining
that maximum. -/
theorem bestMatch_some_spec (tb : Box) (dets : List Box) (used : List ℕ)
    (i : ℕ) (h : bestMatch tb dets used = some i) :
    i < dets.length ∧
    ∃ s, Cand tb dets used i s ∧
      (∀ j s', j < dets.length → Cand tb dets used j s' →
        scoreVal s' ≤ scoreVal s) ∧
      (∀ j s', j < i → Cand tb dets used j s' → scoreVal s' < scoreVal s) := by
  have hinv0 : LoopInv tb dets used (.negOne, none) 0 := by
    constructor
    · intro _
      exact ⟨rfl, fun j s hj _ => absurd hj (Nat.not_lt_zero j)⟩
    · intro i hi
      simp at hi
  have h2 := bestLoop_inv tb dets used dets 0 (.negOne, none)
    (by simp) trivial hinv0
  unfold bestMatch at h
  obtain ⟨hlt, hc, hmax, hstrict⟩ := h2.2.2 i h
  rw [Nat.zero_add] at hlt hmax
  exact ⟨hlt, (bestLoop tb used (.negOne, none) 0 dets).1, hc, hmax, hstrict⟩

/-- Characterisation of a failed match: every in-range unclaimed detection
is ineligible. -/
theorem bestMatch_none_spec (tb : Box) (dets : List Box) (used : List ℕ)
    (h : bestMatch tb dets used = none) :
    ∀ j, j < dets.length → j ∉ used → scoreAt tb dets j = none := by
  have hinv0 : LoopInv tb dets used (.negOne, none) 0 := by
    constructor
    · intro _
      exact ⟨rfl, fun j s hj _ => absurd hj (Nat.not_lt_zero j)⟩
    · intro i hi
      simp at hi
  have h2 := bestLoop_inv tb dets used dets 0 (.negOne, none)
    (by simp) trivial hinv0
  unfold bestMatch at h
  obtain ⟨-, hnone⟩ := h2.2.1 h
  rw [Nat.zero_add] at hnone
  intro j hj hju
  cases hs : scoreAt tb dets j with
  | none => rfl
  | some s => exact absurd ⟨hju, hs⟩ (hnone j s hj)

/-- Default box used for list lookups whose indices are proved in range. -/
def dummyBox : Box := ⟨0, 0, 0, 0⟩

/-- State of one `FaceTrack` (tracking.py 33-44): its box and the miss
counter `frames_since_detection`.  The per-job `id` counter and the opaque
OpenCV tracker handle play no role in the claims; the tracker's per-frame
output is supplied by an oracle argument instead. -/
structure FaceTrack where
  bbox : Box
  frames_since_detection : ℕ
deriving DecidableEq

/-- `FaceTrack.max_frames_without_detection` (tracking.py line 42). -/
def max_frames_without_detection : ℕ := 20

/-- `FaceTrack.is_valid` (tracking.py 76-77). -/
def FaceTrack.is_valid (t : FaceTrack) : Bool :=
  decide (t.frames_since_detection < max_frames_without_detection)

/-- `FaceTrack.update_with_detection` (tracking.py 59-62): adopt the
detection's box exactly and reset the miss counter; the tracker re-init is
part of the external oracle. -/
def FaceTrack.update_with_detection (t : FaceTrack) (b : Box) : FaceTrack :=
  { bbox := b, frames_since_detection := 0 }

/-- `FaceTrack.update_with_tracker` (tracking.py 64-74): always increment
the miss counter; adopt the visual tracker's box when it succeeded
(`some b`), keep the old box otherwise (`none` covers both a missing
tracker and a failed or throwing update). -/
def FaceTrack.update_with_tracker (t : FaceTrack) (res : Option Box) :
    FaceTrack :=
  { bbox := res.getD t.bbox,
    frames_since_detection := t.frames_since_detection + 1 }

/-- First phase of `FaceTracker.update` (tracking.py 105-106): advance
every track with the visual tracker.  `kcf i` is the oracle result for the
track at position `i`. -/
def advanceAll (kcf : ℕ → Option Box) : ℕ → List FaceTrack → List FaceTrack
  | _, [] => []
  | i, t :: ts => t.update_with_tracker (kcf i) :: advanceAll kcf (i + 1) ts

/-- Matching phase of `FaceTracker.update` (tracking.py 108-137): process
tracks in list order; each takes its best-scoring unclaimed detection (if
any), adopts it, and claims its index.  Returns each track paired with its
claimed index, plus the final claimed set. -/
def greedyAssign (dets : List Box) :
    List FaceTrack → List ℕ → List (FaceTrack × Option ℕ) × List ℕ
  | [], used => ([], used)
  | t :: ts, used =>
    match bestMatch t.bbox dets used with
    | some i =>
      let rest := greedyAssign dets ts (i :: used)
      ((t.update_with_detection (dets.getD i dummyBox), some i) :: rest.1,
        rest.2)
    | none =>
      let rest := greedyAssign dets ts used
      ((t, none) :: rest.1, rest.2)

/-- Spawn phase of `FaceTracker.update` (tracking.py 139-141): every
unclaimed detection starts a new track with a zero miss counter. -/
def spawnTracks (dets : List Box) (used : List ℕ) : List FaceTrack :=
  dets.enum.filterMap fun p => if p.1 ∈ used then none else some ⟨p.2, 0⟩

/-- Full `FaceTracker.update` (tracking.py 104-143): advance, match, spawn,
then retire every track that is no longer valid. -/
def FaceTracker.update (kcf : ℕ → Option Box) (dets : List Box)
    (tracks : List FaceTrack) : List FaceTrack :=
  let advanced := advanceAll kcf 0 tracks
  let assigned := greedyAssign dets advanced []
  (assigned.1.map Prod.fst ++ spawnTracks dets assigned.2).filter
    FaceTrack.is_valid

/-- C6: `FaceTracker.update` matches greedily in existing track order with
no global re-optimisation.  (1) A track's chosen detection is in range,
not yet claimed, and eligible; no unclaimed eligible detection scores
strictly higher, and every earlier-scanned unclaimed eligible detection
scores strictly lower (so equal-scoring ties go to the lowest index).
(2) A track goes unmatched exactly when no unclaimed eligible detection
exists.  (3) Claimed detection indices are never reused: across one
matching phase the assigned indices are pairwise distinct and disjoint
from the initially claimed set. -/
theorem greedy_matching_spec :
    (∀ (tb : Box) (dets : List Box) (used : List ℕ) (i : ℕ),
      bestMatch tb dets used = some i →
        i < dets.length ∧ i ∉ used ∧
        ∃ s, scoreAt tb dets i = some s ∧
          (∀ j s', j < dets.length → j ∉ used → scoreAt tb dets j = some s' →
            scoreVal s' ≤ scoreVal s) ∧
          (∀ j s', j < i → j ∉ used → scoreAt tb dets j = some s' →
            scoreVal s' < scoreVal s)) ∧
    (∀ (tb : Box) (dets : List Box) (used : List ℕ),
      bestMatch tb dets used = none →
        ∀ j, j < dets.length → j ∉ used → scoreAt tb dets j = none) ∧
    (∀ (dets : List Box) (tracks : List FaceTrack) (used₀ : List ℕ),
      List.Nodup used₀ →
        List.Nodup ((greedyAssign dets tracks used₀).1.filterMap Prod.snd
          ++ used₀)) := by
  refine ⟨?_, bestMatch_none_spec, ?_⟩
  · intro tb dets used i h
    obtain ⟨hlt, s, ⟨hu, hs⟩, hmax, hstrict⟩ := bestMatch_some_spec tb dets used i h
    refine ⟨hlt, hu, s, hs, ?_, ?_⟩
    · intro j s' hj hju hsj
      exact hmax j s' hj ⟨hju, hsj⟩
    · intro j s' hj hju hsj
      exact hstrict j s' hj ⟨hju, hsj⟩
  · intro dets tracks
    induction tracks with
    | nil =>
      intro used₀ hnd
      simpa [greedyAssign] using hnd
    | cons t ts ih =>
      intro used₀ hnd
      cases hbm : bestMatch t.bbox dets used₀ with
      | none =>
        simpa [greedyAssign, hbm] using ih used₀ hnd
      | some i =>
        have hiu : i ∉ used₀ :=
          (bestMatch_some_spec t.bbox dets used₀ i hbm).2.choose_spec.1.1
        have hrec := ih (i :: used₀) (List.nodup_cons.mpr ⟨hiu, hnd⟩)
        simp only [greedyAssign, hbm, List.filterMap_cons_some, List.cons_append]
        have hperm :
            ((greedyAssign dets ts (i :: used₀)).1.filterMap Prod.snd
              ++ (i :: used₀)).Perm
            (i :: ((greedyAssign dets ts (i :: used₀)).1.filterMap Prod.snd
              ++ used₀)) := List.perm_middle
        exact hperm.nodup hrec

/-- Witness for C6: with track box `(100,100,50,50)`, detections
`[(160,100,50,50), (105,100,50,50)]` and nothing claimed, the loop picks
index 1 (the IoU match beats the earlier distance-only decoy), and a
single-track assignment claims a fresh, duplicate-free index set. -/
theorem greedy_matching_spec_witness :
    bestMatch ⟨100, 100, 50, 50⟩ [⟨160, 100, 50, 50⟩, ⟨105, 100, 50, 50⟩] []
      = some 1 ∧
    (1 : ℕ) ∉ ([] : List ℕ) ∧
    List.Nodup ((greedyAssign [⟨160, 100, 50, 50⟩]
      [⟨⟨100, 100, 50, 50⟩, 3⟩] []).1.filterMap Prod.snd ++ []) := by
  have hb : bestMatch ⟨100, 100, 50, 50⟩
      [⟨160, 100, 50, 50⟩, ⟨105, 100, 50, 50⟩] [] = some 1 := by
    norm_num [bestMatch, bestLoop, detScore, scoreLt, calculate_iou,
      get_center, distSq, iou_threshold, distance_threshold_ratio]
  refine ⟨hb, (greedy_matching_spec.1 _ _ _ 1 hb).2.1, ?_⟩
  exact greedy_matching_spec.2.2 [⟨160, 100, 50, 50⟩]
    [⟨⟨100, 100, 50, 50⟩, 3⟩] [] List.nodup_nil

/-- Default track for list lookups whose indices are proved in range. -/
def dummyTrack : FaceTrack := ⟨dummyBox, 0⟩

/-- Default pair for list lookups whose indices are proved in range. -/
def dummyPair : FaceTrack × Option ℕ := (dummyTrack, none)

theorem advanceAll_length (kcf : ℕ → Option Box) :
    ∀ (s : ℕ) (ts : List FaceTrack), (advanceAll kcf s ts).length = ts.length := by
  intro s ts
  induction ts generalizing s with
  | nil => rfl
  | cons t ts ih => simp [advanceAll, ih]

theorem advanceAll_getD (kcf : ℕ → Option Box) :
    ∀ (ts : List FaceTrack) (s i : ℕ), i < ts.length →
      (advanceAll kcf s ts).getD i dummyTrack =
        (ts.getD i dummyTrack).update_with_tracker (kcf (s + i)) := by
  intro ts
  induction ts with
  | nil =>
    intro s i hi
    exact absurd hi (Nat.not_lt_zero i)
  | cons t ts ih =>
    intro s i hi
    cases i with
    | zero => rfl
    | succ i =>
      have := ih (s + 1) i (Nat.lt_of_succ_lt_succ hi)
      simpa [advanceAll, Nat.add_assoc, Nat.add_comm 1 i] using this

theorem greedyAssign_length (dets : List Box) :
    ∀ (ts : List FaceTrack) (used : List ℕ),
      (greedyAssign dets ts used).1.length = ts.length := by
  intro ts
  induction ts with
  | nil => intro used; rfl
  | cons t ts ih =>
    intro used
    cases hbm : bestMatch t.bbox dets used with
    | none => simp [greedyAssign, hbm, ih]
    | some i => simp [greedyAssign, hbm, ih]

theorem greedyAssign_getD (dets : List Box) :
    ∀ (ts : List FaceTrack) (used : List ℕ) (i : ℕ), i < ts.length →
      (((greedyAssign dets ts used).1.getD i dummyPair).2.isSome = true →
        ((greedyAssign dets ts used).1.getD i
          dummyPair).1.frames_since_detection = 0) ∧
      (((greedyAssign dets ts used).1.getD i dummyPair).2 = none →
        ((greedyAssign dets ts used).1.getD i dummyPair).1 =
          ts.getD i dummyTrack) := by
  intro ts
  induction ts with
  | nil =>
    intro used i hi
    exact absurd hi (Nat.not_lt_zero i)
  | cons t ts ih =>
    intro used i hi
    cases hbm : bestMatch t.bbox dets used with
    | none =>
      cases i with
      | zero =>
        constructor
        · intro h
          simp [greedyAssign, hbm] at h
        · intro _
          simp [greedyAssign, hbm]
      | succ i =>
        have := ih used i (Nat.lt_of_succ_lt_succ hi)
        simpa [greedyAssign, hbm] using this
    | some j =>
      cases i with
      | zero =>
        constructor
        · intro _
          simp [greedyAssign, hbm, FaceTrack.update_with_detection]
        · intro h
          simp [greedyAssign, hbm] at h
      | succ i =>
        have := ih (j :: used) i (Nat.lt_of_succ_lt_succ hi)
        simpa [greedyAssign, hbm] using this

/-- C1: in every `FaceTracker.update`, a track matched to a detection ends
the frame with `frames_since_detection = 0`, an unmatched track ends with
exactly its previous value plus one, and a track is in the resulting track
set iff it is among the updated-plus-spawned tracks and its miss counter is
strictly below 20 — removal happens iff the counter reached 20. -/
theorem track_miss_counter_spec (kcf : ℕ → Option Box) (dets : List Box)
    (tracks : List FaceTrack) :
    (greedyAssign dets (advanceAll kcf 0 tracks) []).1.length =
      tracks.length ∧
    (∀ i, i < tracks.length →
      (((greedyAssign dets (advanceAll kcf 0 tracks) []).1.getD i
          dummyPair).2.isSome = true →
        ((greedyAssign dets (advanceAll kcf 0 tracks) []).1.getD i
          dummyPair).1.frames_since_detection = 0) ∧
      (((greedyAssign dets (advanceAll kcf 0 tracks) []).1.getD i
          dummyPair).2 = none →
        ((greedyAssign dets (advanceAll kcf 0 tracks) []).1.getD i
          dummyPair).1.frames_since_detection =
          (tracks.getD i dummyTrack).frames_since_detection + 1)) ∧
    (∀ t, t ∈ FaceTracker.update kcf dets tracks ↔
      (t ∈ (greedyAssign dets (advanceAll kcf 0 tracks) []).1.map Prod.fst
          ++ spawnTracks dets (greedyAssign dets (advanceAll kcf 0 tracks) []).2 ∧
        t.frames_since_detection < max_frames_without_detection)) := by
  have hlen : (advanceAll kcf 0 tracks).length = tracks.length :=
    advanceAll_length kcf 0 tracks
  refine ⟨(greedyAssign_length dets _ _).trans hlen, ?_, ?_⟩
  · intro i hi
    have hi' : i < (advanceAll kcf 0 tracks).length := hlen ▸ hi
    obtain ⟨h1, h2⟩ := greedyAssign_getD dets (advanceAll kcf 0 tracks) [] i hi'
    refine ⟨h1, ?_⟩
    intro hnone
    rw [h2 hnone, advanceAll_getD kcf tracks 0 i hi]
    rfl
  · intro t
    simp only [FaceTracker.update, List.mem_filter, FaceTrack.is_valid,
      decide_eq_true_eq]

/-- Witness for C1: with no detections and a silent tracker oracle, a track
previously missed 5 frames ends at 6, and a track that reaches 20 missed
frames is removed by the update. -/
theorem track_miss_counter_spec_witness :
    ((greedyAssign [] (advanceAll (fun _ => none) 0
        [⟨⟨0, 0, 10, 10⟩, 5⟩, ⟨⟨100, 100, 10, 10⟩, 19⟩]) []).1.getD 0
        dummyPair).1.frames_since_detection = 6 ∧
    (⟨⟨100, 100, 10, 10⟩, 20⟩ : FaceTrack) ∉
      FaceTracker.update (fun _ => none) []
        [⟨⟨0, 0, 10, 10⟩, 5⟩, ⟨⟨100, 100, 10, 10⟩, 19⟩] := by
  have h := track_miss_counter_spec (fun _ => none) []
    [⟨⟨0, 0, 10, 10⟩, 5⟩, ⟨⟨100, 100, 10, 10⟩, 19⟩]
  constructor
  · have h2 := (h.2.1 0 (by norm_num)).2 (by decide)
    exact h2.trans (by decide)
  · intro hmem
    have h3 := (h.2.2 ⟨⟨100, 100, 10, 10⟩, 20⟩).mp hmem
    exact absurd h3.2 (by decide)

/-- Python `int(...)` on a rational value: truncation toward zero. -/
def pyTrunc (q : ℚ) : ℤ := if 0 ≤ q then ⌊q⌋ else -⌊-q⌋

/-- `FaceTrack.get_blur_bbox` (tracking.py 79-84): expand the track's box
by `expand_ratio = 0.6`, i.e. `int(w * 0.6 / 2)` extra pixels on each side
of each axis.  The float product is idealised as exact rational
arithmetic. -/
def FaceTrack.get_blur_bbox (t : FaceTrack) : Box :=
  let expand_w := pyTrunc ((t.bbox.w : ℚ) * (6 / 10) / 2)
  let expand_h := pyTrunc ((t.bbox.h : ℚ) * (6 / 10) / 2)
  ⟨t.bbox.x - expand_w, t.bbox.y - expand_h,
    t.bbox.w + expand_w * 2, t.bbox.h + expand_h * 2⟩

/-- `FaceTracker.get_blur_regions` (tracking.py 145-146). -/
def FaceTracker.get_blur_regions (tracks : List FaceTrack) : List Box :=
  tracks.map FaceTrack.get_blur_bbox

/-- Counterexample to C9's area assertion: for the box `(100,100,50,50)`
the expanded box is `(85,85,80,80)` with area `6400 = 2.56 × 2500`, not
`1.6 × 2500 = 4000` — the area does not grow by 60%. -/
theorem blur_bbox_area_counterexample :
    FaceTrack.get_blur_bbox ⟨⟨100, 100, 50, 50⟩, 0⟩ = ⟨85, 85, 80, 80⟩ ∧
    ¬ ((FaceTrack.get_blur_bbox ⟨⟨100, 100, 50, 50⟩, 0⟩).w *
        (FaceTrack.get_blur_bbox ⟨⟨100, 100, 50, 50⟩, 0⟩).h : ℚ) =
      (160 / 100) * ((50 : ℚ) * 50) := by
  have hbox : FaceTrack.get_blur_bbox ⟨⟨100, 100, 50, 50⟩, 0⟩ =
      ⟨85, 85, 80, 80⟩ := by
    norm_num [FaceTrack.get_blur_bbox, pyTrunc]
  refine ⟨hbox, ?_⟩
  rw [hbox]
  norm_num

/-- C9 (amended): each axis of the blur box is extended on each side by
`int(0.3·w)` (resp. `int(0.3·h)`) pixels, so each axis grows by about 60%
in total; the resulting area is therefore about `2.56×` the original —
exactly `64/25` of it when the truncations are exact (e.g. `w`, `h`
multiples of 10) and never more — not `1.6×` as the 60%-area reading
would give.  `get_blur_regions` applies this to every current track. -/
theorem blur_bbox_expansion_spec (t : FaceTrack)
    (hw : 0 ≤ t.bbox.w) (hh : 0 ≤ t.bbox.h) :
    (FaceTrack.get_blur_bbox t =
      ⟨t.bbox.x - ⌊(3 * t.bbox.w : ℚ) / 10⌋,
       t.bbox.y - ⌊(3 * t.bbox.h : ℚ) / 10⌋,
       t.bbox.w + ⌊(3 * t.bbox.w : ℚ) / 10⌋ * 2,
       t.bbox.h + ⌊(3 * t.bbox.h : ℚ) / 10⌋ * 2⟩) ∧
    ((10 : ℤ) ∣ t.bbox.w → (10 : ℤ) ∣ t.bbox.h →
      ((FaceTrack.get_blur_bbox t).w * (FaceTrack.get_blur_bbox t).h) * 25 =
        64 * (t.bbox.w * t.bbox.h)) ∧
    (((FaceTrack.get_blur_bbox t).w * (FaceTrack.get_blur_bbox t).h : ℚ) ≤
      (64 / 25) * ((t.bbox.w : ℚ) * (t.bbox.h : ℚ))) ∧
    (∀ tracks : List FaceTrack,
      FaceTracker.get_blur_regions tracks =
        tracks.map FaceTrack.get_blur_bbox) := by
  have harg : ∀ z : ℤ, 0 ≤ z → (z : ℚ) * (6 / 10) / 2 = (3 * z : ℚ) / 10 := by
    intro z _
    push_cast
    ring
  have htr : ∀ z : ℤ, 0 ≤ z →
      pyTrunc ((z : ℚ) * (6 / 10) / 2) = ⌊(3 * z : ℚ) / 10⌋ := by
    intro z hz
    have hnn : (0 : ℚ) ≤ (z : ℚ) * (6 / 10) / 2 := by positivity
    rw [pyTrunc, if_pos hnn, harg z hz]
  have hwtr := htr t.bbox.w hw
  have hhtr := htr t.bbox.h hh
  have hbox : FaceTrack.get_blur_bbox t =
      ⟨t.bbox.x - ⌊(3 * t.bbox.w : ℚ) / 10⌋,
       t.bbox.y - ⌊(3 * t.bbox.h : ℚ) / 10⌋,
       t.bbox.w + ⌊(3 * t.bbox.w : ℚ) / 10⌋ * 2,
       t.bbox.h + ⌊(3 * t.bbox.h : ℚ) / 10⌋ * 2⟩ := by
    simp only [FaceTrack.get_blur_bbox, hwtr, hhtr]
  have hfloor_le : ∀ z : ℤ, ((⌊(3 * z : ℚ) / 10⌋ : ℤ) : ℚ) ≤ (3 * z : ℚ) / 10 :=
    fun z => Int.floor_le _
  have hfloor_nn : ∀ z : ℤ, 0 ≤ z → 0 ≤ ⌊(3 * z : ℚ) / 10⌋ := by
    intro z hz
    apply Int.floor_nonneg.mpr
    have : (0 : ℚ) ≤ (z : ℚ) := by exact_mod_cast hz
    positivity
  refine ⟨hbox, ?_, ?_, fun _ => rfl⟩
  · rintro ⟨k, hk⟩ ⟨m, hm⟩
    rw [hbox]
    have hwf : ⌊(3 * t.bbox.w : ℚ) / 10⌋ = 3 * k := by
      rw [hk]
      have : ((3 : ℚ) * (10 * k : ℤ)) / 10 = ((3 * k : ℤ) : ℚ) := by
        push_cast
        ring
      rw [this, Int.floor_intCast]
    have hhf : ⌊(3 * t.bbox.h : ℚ) / 10⌋ = 3 * m := by
      rw [hm]
      have : ((3 : ℚ) * (10 * m : ℤ)) / 10 = ((3 * m : ℤ) : ℚ) := by
        push_cast
        ring
      rw [this, Int.floor_intCast]
    simp only [hwf, hhf]
    rw [hk, hm]
    ring
  · rw [hbox]
    simp only
    have h1 : ((t.bbox.w + ⌊(3 * t.bbox.w : ℚ) / 10⌋ * 2 : ℤ) : ℚ) ≤
        (8 / 5) * (t.bbox.w : ℚ) := by
      have := hfloor_le t.bbox.w
      push_cast
      linarith
    have h2 : ((t.bbox.h + ⌊(3 * t.bbox.h : ℚ) / 10⌋ * 2 : ℤ) : ℚ) ≤
        (8 / 5) * (t.bbox.h : ℚ) := by
      have := hfloor_le t.bbox.h
      push_cast
      linarith
    have h3 : (0 : ℚ) ≤ ((t.bbox.w + ⌊(3 * t.bbox.w : ℚ) / 10⌋ * 2 : ℤ) : ℚ) := by
      have := hfloor_nn t.bbox.w hw
      have hw' : (0 : ℚ) ≤ (t.bbox.w : ℚ) := by exact_mod_cast hw
      have : (0 : ℚ) ≤ ((⌊(3 * t.bbox.w : ℚ) / 10⌋ : ℤ) : ℚ) := by
        exact_mod_cast this
      push_cast
      linarith
    have h4 : (0 : ℚ) ≤ ((t.bbox.h + ⌊(3 * t.bbox.h : ℚ) / 10⌋ * 2 : ℤ) : ℚ) := by
      have := hfloor_nn t.bbox.h hh
      have hh' : (0 : ℚ) ≤ (t.bbox.h : ℚ) := by exact_mod_cast hh
      have : (0 : ℚ) ≤ ((⌊(3 * t.bbox.h : ℚ) / 10⌋ : ℤ) : ℚ) := by
        exact_mod_cast this
      push_cast
      linarith
    have h5 : (0 : ℚ) ≤ (8 / 5) * (t.bbox.h : ℚ) := le_trans h4 h2
    calc ((t.bbox.w + ⌊(3 * t.bbox.w : ℚ) / 10⌋ * 2 : ℤ) : ℚ) *
          ((t.bbox.h + ⌊(3 * t.bbox.h : ℚ) / 10⌋ * 2 : ℤ) : ℚ)
        ≤ ((8 / 5) * (t.bbox.w : ℚ)) * ((8 / 5) * (t.bbox.h : ℚ)) := by
          exact mul_le_mul h1 h2 h4 (le_trans h3 h1)
      _ = (64 / 25) * ((t.bbox.w : ℚ) * (t.bbox.h : ℚ)) := by ring

/-- Witness for C9's amended claim at the box `(100,100,50,50)`: the
expanded box has exactly `64/25` of the original area. -/
theorem blur_bbox_expansion_spec_witness :
    ((FaceTrack.get_blur_bbox ⟨⟨100, 100, 50, 50⟩, 0⟩).w *
      (FaceTrack.get_blur_bbox ⟨⟨100, 100, 50, 50⟩, 0⟩).h) * 25 =
      64 * ((50 : ℤ) * 50) := by
  exact (blur_bbox_expansion_spec ⟨⟨100, 100, 50, 50⟩, 0⟩ (by norm_num)
    (by norm_num)).2.1 (by norm_num) (by norm_num)

/-- An image as a pixel field with its dimensions (`image.shape[:2]` gives
`(h, w)`); pixel values are abstract (ℕ), indices are ℤ so that
out-of-bound boxes can be expressed. -/
structure Image where
  h : ℤ
  w : ℤ
  pix : ℤ → ℤ → ℕ

/-- `apply_elliptical_blur(image, bbox)` (face_blur.py 36-73).  The box is
first clipped to the frame (`x1 = max(0,x)` … `y2 = min(h_img, y+h)`); a
nonpositive clipped width or height returns with no change; otherwise the
region `[y1:y2, x1:x2]` is replaced by the blend computed from the region's
own pixels.  The Gaussian-blur/ellipse/blend computation is the external
`render` oracle; `none` models the source's inner `except: pass`, which
also leaves the image unchanged. -/
def apply_elliptical_blur
    (render : ℤ → ℤ → (ℤ → ℤ → ℕ) → Option (ℤ → ℤ → ℕ))
    (image : Image) (bbox : Box) : Image :=
  let x1 := max 0 bbox.x
  let y1 := max 0 bbox.y
  let x2 := min image.w (bbox.x + bbox.w)
  let y2 := min image.h (bbox.y + bbox.h)
  let new_w := x2 - x1
  let new_h := y2 - y1
  if new_w ≤ 0 ∨ new_h ≤ 0 then image
  else
    match render new_w new_h (fun r c => image.pix (y1 + r) (x1 + c)) with
    | none => image
    | some blended =>
      { image with pix := fun r c =>
          if y1 ≤ r ∧ r < y2 ∧ x1 ≤ c ∧ c < x2 then
            blended (r - y1) (c - x1)
          else image.pix r c }

/-- C10: `apply_elliptical_blur` clips the box to the frame and then only
writes inside the clipped rectangle — every pixel outside it is unchanged,
the image dimensions are unchanged, and a box that clips to nonpositive
width or height leaves the image entirely unchanged (a no-op, not a
failure); this holds for every rendering oracle. -/
theorem elliptical_blur_clip_spec
    (render : ℤ → ℤ → (ℤ → ℤ → ℕ) → Option (ℤ → ℤ → ℕ))
    (image : Image) (bbox : Box) :
    ((min image.w (bbox.x + bbox.w) - max 0 bbox.x ≤ 0 ∨
      min image.h (bbox.y + bbox.h) - max 0 bbox.y ≤ 0) →
      apply_elliptical_blur render image bbox = image) ∧
    (apply_elliptical_blur render image bbox).w = image.w ∧
    (apply_elliptical_blur render image bbox).h = image.h ∧
    (∀ r c,
      ¬ (max 0 bbox.y ≤ r ∧ r < min image.h (bbox.y + bbox.h) ∧
         max 0 bbox.x ≤ c ∧ c < min image.w (bbox.x + bbox.w)) →
      (apply_elliptical_blur render image bbox).pix r c = image.pix r c) := by
  unfold apply_elliptical_blur
  by_cases hz : min image.w (bbox.x + bbox.w) - max 0 bbox.x ≤ 0 ∨
      min image.h (bbox.y + bbox.h) - max 0 bbox.y ≤ 0
  · rw [if_pos hz]
    exact ⟨fun _ => rfl, rfl, rfl, fun _ _ _ => rfl⟩
  · rw [if_neg hz]
    cases hr : render (min image.w (bbox.x + bbox.w) - max 0 bbox.x)
        (min image.h (bbox.y + bbox.h) - max 0 bbox.y)
        (fun r c => image.pix (max 0 bbox.y + r) (max 0 bbox.x + c)) with
    | none =>
      exact ⟨fun hcon => absurd hcon hz, rfl, rfl, fun _ _ _ => rfl⟩
    | some blended =>
      refine ⟨fun hcon => absurd hcon hz, rfl, rfl, ?_⟩
      intro r c hout
      simp only
      rw [if_neg hout]

/-- Witness for C10: a box that clips to negative width is a no-op, and a
pixel outside an in-range box keeps its value, for a concrete image and a
concrete rendering oracle. -/
theorem elliptical_blur_clip_spec_witness :
    apply_elliptical_blur (fun _ _ _ => some fun _ _ => 0)
      ⟨10, 10, fun r c => (r + 2 * c).natAbs⟩ ⟨-5, -5, 3, 20⟩ =
      ⟨10, 10, fun r c => (r + 2 * c).natAbs⟩ ∧
    (apply_elliptical_blur (fun _ _ _ => some fun _ _ => 0)
      ⟨10, 10, fun r c => (r + 2 * c).natAbs⟩ ⟨2, 2, 4, 4⟩).pix 0 0 =
      (0 + 2 * 0 : ℤ).natAbs := by
  constructor
  · exact (elliptical_blur_clip_spec (fun _ _ _ => some fun _ _ => 0)
      ⟨10, 10, fun r c => (r + 2 * c).natAbs⟩ ⟨-5, -5, 3, 20⟩).1
      (by norm_num)
  · exact (elliptical_blur_clip_spec (fun _ _ _ => some fun _ _ => 0)
      ⟨10, 10, fun r c => (r + 2 * c).natAbs⟩ ⟨2, 2, 4, 4⟩).2.2.2 0 0
      (by norm_num)

/-- What happens on one frame of the processing loop (face_blur.py
186-201): `ok` — detection, association and rendering all succeed;
`renderCaught` — an exception inside `apply_elliptical_blur`'s try block is
swallowed (`except: pass`), so the frame is written without its redaction;
`detectRaise` / `trackRaise` — `detector.detect` or `FaceTracker.update`
raises, and nothing in the loop catches it. -/
inductive FrameOutcome where
  | ok : FrameOutcome
  | renderCaught : FrameOutcome
  | detectRaise : FrameOutcome
  | trackRaise : FrameOutcome
deriving DecidableEq

/-- How the frame loop terminated. -/
inductive LoopExit where
  | finished : LoopExit
  | cancelledExit : LoopExit
  | raisedExit : LoopExit
deriving DecidableEq

/-- The frame loop of `blur_faces_in_video` (face_blur.py 174-201).
`cancel k` is the value `cancel_check()` returns at the poll before frame
`k` is read; the poll happens before each read, so cancellation is checked
even when no frame remains.  Each written frame is recorded as a flag:
`true` when its redaction was applied, `false` when a caught rendering
error skipped it.  An uncaught detection/association exception ends the
loop with `raisedExit`. -/
def videoLoop (cancel : ℕ → Bool) (outcome : ℕ → FrameOutcome) :
    ℕ → ℕ → List Bool × LoopExit
  | k, 0 => if cancel k then ([], .cancelledExit) else ([], .finished)
  | k, rem + 1 =>
    if cancel k then ([], .cancelledExit)
    else
      match outcome k with
      | .detectRaise => ([], .raisedExit)
      | .trackRaise => ([], .raisedExit)
      | .renderCaught =>
        let r := videoLoop cancel outcome (k + 1) rem
        (false :: r.1, r.2)
      | .ok =>
        let r := videoLoop cancel outcome (k + 1) rem
        (true :: r.1, r.2)

/-- Observable result of one `blur_faces_in_video` call: whether an
exception escaped the call, the returned `(success, was_cancelled)` pair,
the written frames' redaction flags, whether the temporary output file
still exists afterwards, whether a final output was produced, and whether
reader/writer resources were released. -/
structure BlurRun where
  raised : Bool
  success : Bool
  was_cancelled : Bool
  frames : List Bool
  tempExists : Bool
  outputExists : Bool
  released : Bool
deriving DecidableEq

/-- Result of the early-return paths (face_blur.py 129-161): no temp file
was created yet, `(False, False)` is returned. -/
def earlyFailRun : BlurRun := ⟨false, false, false, [], false, false, true⟩

/-- `blur_faces_in_video` (face_blur.py 116-270).  `modelOk`,
`detectorOk`, `capOpened`, `dimsOk` are the four guard conditions checked
before the loop; `ffmpegOk` says whether the audio remux succeeds (both
remux branches deliver an output and return `(True, False)`).  On
cancellation (face_blur.py 174-216): the loop breaks at the poll, the
reader and writer are released, the temp file is deleted and
`(False, True)` is returned with no output delivered.  An uncaught
per-frame exception propagates out of the function: nothing is released
or cleaned up there. -/
def blur_faces_in_video (modelOk detectorOk capOpened dimsOk ffmpegOk : Bool)
    (cancel : ℕ → Bool) (outcome : ℕ → FrameOutcome) (total : ℕ) : BlurRun :=
  if modelOk = false then earlyFailRun
  else if detectorOk = false then earlyFailRun
  else if capOpened = false then earlyFailRun
  else if dimsOk = false then earlyFailRun
  else
    match videoLoop cancel outcome 0 total with
    | (frames, .raisedExit) => ⟨true, false, false, frames, true, false, false⟩
    | (frames, .cancelledExit) =>
      ⟨false, false, true, frames, false, false, true⟩
    | (frames, .finished) =>
      if ffmpegOk then ⟨false, true, false, frames, false, true, true⟩
      else ⟨false, true, false, frames, false, true, true⟩

theorem videoLoop_cancelled (cancel : ℕ → Bool) (outcome : ℕ → FrameOutcome) :
    ∀ (k s rem : ℕ),
      cancel (s + k) = true →
      (∀ j, j < k → cancel (s + j) = false) →
      (∀ j, j < k → outcome (s + j) = .ok ∨ outcome (s + j) = .renderCaught) →
      k ≤ rem →
      (videoLoop cancel outcome s rem).2 = .cancelledExit ∧
      (videoLoop cancel outcome s rem).1.length = k := by
  intro k
  induction k with
  | zero =>
    intro s rem hk _ _ _
    rw [Nat.add_zero] at hk
    cases rem with
    | zero => simp [videoLoop, hk]
    | succ r => simp [videoLoop, hk]
  | succ k ih =>
    intro s rem hk hb hf hle
    have h0 : cancel s = false := by
      have := hb 0 (Nat.succ_pos k)
      simpa using this
    cases rem with
    | zero => omega
    | succ r =>
      have hk' : cancel (s + 1 + k) = true := by
        rw [show s + 1 + k = s + (k + 1) by omega]
        exact hk
      have hb' : ∀ j, j < k → cancel (s + 1 + j) = false := by
        intro j hj
        rw [show s + 1 + j = s + (j + 1) by omega]
        exact hb (j + 1) (by omega)
      have hf' : ∀ j, j < k →
          outcome (s + 1 + j) = .ok ∨ outcome (s + 1 + j) = .renderCaught := by
        intro j hj
        rw [show s + 1 + j = s + (j + 1) by omega]
        exact hf (j + 1) (by omega)
      have ihr := ih (s + 1) r hk' hb' hf' (by omega)
      have h0' : outcome s = .ok ∨ outcome s = .renderCaught := by
        have := hf 0 (Nat.succ_pos k)
        simpa using this
      rcases h0' with h0' | h0' <;>
        simp [videoLoop, h0, h0', ihr.1, ihr.2]

theorem videoLoop_clean (cancel : ℕ → Bool) (outcome : ℕ → FrameOutcome) :
    ∀ (n s : ℕ),
      (∀ j, j ≤ n → cancel (s + j) = false) →
      (∀ j, j < n → outcome (s + j) = .ok ∨ outcome (s + j) = .renderCaught) →
      (videoLoop cancel outcome s n).2 = .finished ∧
      (videoLoop cancel outcome s n).1.length = n ∧
      (∀ j, j < n → (videoLoop cancel outcome s n).1[j]? =
        some (outcome (s + j) == .ok)) := by
  intro n
  induction n with
  | zero =>
    intro s hc _
    have h0 : cancel s = false := by simpa using hc 0 (Nat.le_refl 0)
    refine ⟨by simp [videoLoop, h0], by simp [videoLoop, h0], ?_⟩
    intro j hj
    exact absurd hj (Nat.not_lt_zero j)
  | succ n ih =>
    intro s hc hf
    have h0 : cancel s = false := by simpa using hc 0 (Nat.zero_le _)
    have hc' : ∀ j, j ≤ n → cancel (s + 1 + j) = false := by
      intro j hj
      rw [show s + 1 + j = s + (j + 1) by omega]
      exact hc (j + 1) (by omega)
    have hf' : ∀ j, j < n →
        outcome (s + 1 + j) = .ok ∨ outcome (s + 1 + j) = .renderCaught := by
      intro j hj
      rw [show s + 1 + j = s + (j + 1) by omega]
      exact hf (j + 1) (by omega)
    have ihr := ih (s + 1) hc' hf'
    have h0' : outcome s = .ok ∨ outcome s = .renderCaught := by
      have := hf 0 (Nat.succ_pos n)
      simpa using this
    rcases h0' with h0' | h0'
    · refine ⟨by simp [videoLoop, h0, h0', ihr.1],
        by simp [videoLoop, h0, h0', ihr.2.1], ?_⟩
      intro j hj
      cases j with
      | zero => simp [videoLoop, h0, h0']
      | succ j =>
        have := ihr.2.2 j (by omega)
        rw [show s + (j + 1) = s + 1 + j by omega]
        simpa [videoLoop, h0, h0'] using this
    · refine ⟨by simp [videoLoop, h0, h0', ihr.1],
        by simp [videoLoop, h0, h0', ihr.2.1], ?_⟩
      intro j hj
      cases j with
      | zero => simp [videoLoop, h0, h0']
      | succ j =>
        have := ihr.2.2 j (by omega)
        rw [show s + (j + 1) = s + 1 + j by omega]
        simpa [videoLoop, h0, h0'] using this

theorem videoLoop_raised (cancel : ℕ → Bool) (outcome : ℕ → FrameOutcome) :
    ∀ (k s rem : ℕ),
      k < rem →
      (∀ j, j ≤ k → cancel (s + j) = false) →
      (∀ j, j < k → outcome (s + j) = .ok ∨ outcome (s + j) = .renderCaught) →
      (outcome (s + k) = .detectRaise ∨ outcome (s + k) = .trackRaise) →
      (videoLoop cancel outcome s rem).2 = .raisedExit ∧
      (videoLoop cancel outcome s rem).1.length = k := by
  intro k
  induction k with
  | zero =>
    intro s rem hrem hc _ hk
    have h0 : cancel s = false := by simpa using hc 0 (Nat.le_refl 0)
    cases rem with
    | zero => omega
    | succ r =>
    rw [Nat.add_zero] at hk
    rcases hk with hk | hk <;> simp [videoLoop, h0, hk]
  | succ k ih =>
    intro s rem hrem hc hf hk
    have h0 : cancel s = false := by simpa using hc 0 (Nat.zero_le _)
    cases rem with
    | zero => omega
    | succ r =>
    have hc' : ∀ j, j ≤ k → cancel (s + 1 + j) = false := by
      intro j hj
      rw [show s + 1 + j = s + (j + 1) by omega]
      exact hc (j + 1) (by omega)
    have hf' : ∀ j, j < k →
        outcome (s + 1 + j) = .ok ∨ outcome (s + 1 + j) = .renderCaught := by
      intro j hj
      rw [show s + 1 + j = s + (j + 1) by omega]
      exact hf (j + 1) (by omega)
    have hk' : outcome (s + 1 + k) = .detectRaise ∨
        outcome (s + 1 + k) = .trackRaise := by
      rw [show s + 1 + k = s + (k + 1) by omega]
      exact hk
    have ihr := ih (s + 1) r (by omega) hc' hf' hk'
    have h0' : outcome s = .ok ∨ outcome s = .renderCaught := by
      have := hf 0 (Nat.succ_pos k)
      simpa using this
    rcases h0' with h0' | h0' <;>
      simp [videoLoop, h0, h0', ihr.1, ihr.2]

/-- C2: `blur_faces_in_video` polls the cancellation signal before reading
each frame; when the first poll that reads true is poll `k` (with at most
`k` frames available before it), the loop stops having written exactly the
`k` frames read before that poll, the reader/writer are released, the
partial temp output is deleted, no output is delivered, no exception
escapes, and the function returns `(success, was_cancelled) =
(False, True)`. -/
theorem cancellation_spec (ffmpegOk : Bool) (cancel : ℕ → Bool)
    (outcome : ℕ → FrameOutcome) (total k : ℕ)
    (hk : cancel k = true)
    (hbefore : ∀ j, j < k → cancel j = false)
    (hframes : ∀ j, j < k → outcome j = .ok ∨ outcome j = .renderCaught)
    (hle : k ≤ total) :
    (blur_faces_in_video true true true true ffmpegOk cancel outcome
      total).was_cancelled = true ∧
    (blur_faces_in_video true true true true ffmpegOk cancel outcome
      total).success = false ∧
    (blur_faces_in_video true true true true ffmpegOk cancel outcome
      total).raised = false ∧
    (blur_faces_in_video true true true true ffmpegOk cancel outcome
      total).tempExists = false ∧
    (blur_faces_in_video true true true true ffmpegOk cancel outcome
      total).outputExists = false ∧
    (blur_faces_in_video true true true true ffmpegOk cancel outcome
      total).released = true ∧
    (blur_faces_in_video true true true true ffmpegOk cancel outcome
      total).frames.length = k := by
  have hl := videoLoop_cancelled cancel outcome k 0 total (by simpa using hk)
    (by simpa using hbefore) (by simpa using hframes) hle
  rcases hloop : videoLoop cancel outcome 0 total with ⟨frames, ex⟩
  rw [hloop] at hl
  simp only at hl
  obtain ⟨hex, hlen⟩ := hl
  subst hex
  simp [blur_faces_in_video, hloop, hlen]

/-- Witness for C2: five available frames, the cancel flag first reads true
at poll 2 — two frames were written, the temp file is gone, no output
exists, and the call reports `(False, True)`. -/
theorem cancellation_spec_witness :
    (blur_faces_in_video true true true true true (fun j => decide (2 ≤ j))
      (fun _ => .ok) 5).was_cancelled = true ∧
    (blur_faces_in_video true true true true true (fun j => decide (2 ≤ j))
      (fun _ => .ok) 5).success = false ∧
    (blur_faces_in_video true true true true true (fun j => decide (2 ≤ j))
      (fun _ => .ok) 5).tempExists = false ∧
    (blur_faces_in_video true true true true true (fun j => decide (2 ≤ j))
      (fun _ => .ok) 5).outputExists = false ∧
    (blur_faces_in_video true true true true true (fun j => decide (2 ≤ j))
      (fun _ => .ok) 5).frames.length = 2 := by
  have h := cancellation_spec true (fun j => decide (2 ≤ j)) (fun _ => .ok)
    5 2 (by decide) (by decide) (fun j _ => Or.inl rfl) (by decide)
  exact ⟨h.1, h.2.1, h.2.2.2.1, h.2.2.2.2.1, h.2.2.2.2.2.2⟩

/-- Counterexample to C4: on a three-frame video where `detector.detect`
raises on the second frame (index 1), the job does not continue with the
next frame — the exception escapes `blur_faces_in_video` (nothing in the
frame loop catches detection or association errors), only one frame was
written, and no cleanup happens. -/
theorem frame_error_containment_counterexample :
    (blur_faces_in_video true true true true true (fun _ => false)
      (fun j => if j = 1 then .detectRaise else .ok) 3).raised = true ∧
    (blur_faces_in_video true true true true true (fun _ => false)
      (fun j => if j = 1 then .detectRaise else .ok) 3).frames.length = 1 ∧
    (blur_faces_in_video true true true true true (fun _ => false)
      (fun j => if j = 1 then .detectRaise else .ok) 3).success = false ∧
    (blur_faces_in_video true true true true true (fun _ => false)
      (fun j => if j = 1 then .detectRaise else .ok) 3).released = false := by
  decide

/-- C4 (amended): only exceptions raised inside
`apply_elliptical_blur`'s guarded rendering block are contained, and they
skip just that frame's redaction (the frame is still written, unredacted,
and processing continues to completion); an exception from
`detector.detect` or `FaceTracker.update` is not caught by the frame loop
and aborts the whole call instead. -/
theorem frame_error_containment_spec :
    (∀ (ffmpegOk : Bool) (cancel : ℕ → Bool) (outcome : ℕ → FrameOutcome)
        (total : ℕ),
      (∀ j, j ≤ total → cancel j = false) →
      (∀ j, j < total → outcome j = .ok ∨ outcome j = .renderCaught) →
      (blur_faces_in_video true true true true ffmpegOk cancel outcome
        total).raised = false ∧
      (blur_faces_in_video true true true true ffmpegOk cancel outcome
        total).success = true ∧
      (blur_faces_in_video true true true true ffmpegOk cancel outcome
        total).frames.length = total ∧
      (∀ j, j < total →
        (blur_faces_in_video true true true true ffmpegOk cancel outcome
          total).frames[j]? = some (outcome j == .ok))) ∧
    (∀ (ffmpegOk : Bool) (cancel : ℕ → Bool) (outcome : ℕ → FrameOutcome)
        (total k : ℕ),
      k < total →
      (∀ j, j ≤ k → cancel j = false) →
      (∀ j, j < k → outcome j = .ok ∨ outcome j = .renderCaught) →
      (outcome k = .detectRaise ∨ outcome k = .trackRaise) →
      (blur_faces_in_video true true true true ffmpegOk cancel outcome
        total).raised = true ∧
      (blur_faces_in_video true true true true ffmpegOk cancel outcome
        total).frames.length = k) := by
  constructor
  · intro ffmpegOk cancel outcome total hnc hok
    have hl := videoLoop_clean cancel outcome total 0 (by simpa using hnc)
      (by simpa using hok)
    rcases hloop : videoLoop cancel outcome 0 total with ⟨frames, ex⟩
    rw [hloop] at hl
    simp only at hl
    obtain ⟨hex, hlen, hco⟩ := hl
    subst hex
    have hco' : ∀ j, j < total → frames[j]? = some (outcome j == .ok) := by
      intro j hj
      simpa using hco j hj
    cases ffmpegOk <;>
      simpa [blur_faces_in_video, hloop, hlen] using hco'
  · intro ffmpegOk cancel outcome total k hk hnc hok hraise
    have hl := videoLoop_raised cancel outcome k 0 total hk
      (by simpa using hnc) (by simpa using hok) (by simpa using hraise)
    rcases hloop : videoLoop cancel outcome 0 total with ⟨frames, ex⟩
    rw [hloop] at hl
    simp only at hl
    obtain ⟨hex, hlen⟩ := hl
    subst hex
    simp [blur_faces_in_video, hloop, hlen]

/-- Witness for C4's amended claim: a caught rendering error on frame 1 of
3 skips only that frame's redaction and the job still completes. -/
theorem frame_error_containment_spec_witness :
    (blur_faces_in_video true true true true true (fun _ => false)
      (fun j => if j = 1 then .renderCaught else .ok) 3).raised = false ∧
    (blur_faces_in_video true true true true true (fun _ => false)
      (fun j => if j = 1 then .renderCaught else .ok) 3).success = true ∧
    (blur_faces_in_video true true true true true (fun _ => false)
      (fun j => if j = 1 then .renderCaught else .ok) 3).frames.length = 3 ∧
    (blur_faces_in_video true true true true true (fun _ => false)
      (fun j => if j = 1 then .renderCaught else .ok) 3).frames[1]? =
      some false := by
  have h := frame_error_containment_spec.1 true (fun _ => false)
    (fun j => if j = 1 then .renderCaught else .ok) 3
    (fun j _ => rfl) (by decide)
  refine ⟨h.1, h.2.1, h.2.2.1, ?_⟩
  have := h.2.2.2 1 (by decide)
  simpa using this

/-- One Wait Queue entry (queue_manager.py 70-79).  The metadata dict is
opaque (ℕ); `queue_msg_id` is optional with `None` default. -/
structure QueueEntry where
  user_id : ℤ
  chat_id : ℤ
  timestamp : ℚ
  file_size_mb : ℚ
  file_id : String
  file_type : String
  metadata : ℕ
  queue_msg_id : Option ℕ
deriving DecidableEq

/-- `get_queue_position(user_id)` (queue_manager.py 38-46): 1-indexed
position of the first entry with this user id, 0 when absent. -/
def get_queue_position (user_id : ℤ) : List QueueEntry → ℕ
  | [] => 0
  | e :: rest =>
    if e.user_id = user_id then 1
    else
      match get_queue_position user_id rest with
      | 0 => 0
      | p => p + 1

/-- In-place refresh of an existing entry's payload (queue_manager.py
60-67); `queue_msg_id` is only overwritten when the argument is truthy
(`if queue_msg_id:` — `None` and `0` are falsy). -/
def refreshEntry (file_size_mb : ℚ) (file_id file_type : String)
    (metadata : ℕ) (queue_msg_id : Option ℕ) (e : QueueEntry) : QueueEntry :=
  { e with
    file_size_mb := file_size_mb
    file_id := file_id
    file_type := file_type
    metadata := metadata
    queue_msg_id :=
      if queue_msg_id.getD 0 ≠ 0 then queue_msg_id else e.queue_msg_id }

/-- Replace the first entry of a given user by `f` applied to it; `none`
when the user has no entry. -/
def updateFirst (user_id : ℤ) (f : QueueEntry → QueueEntry) :
    List QueueEntry → Option (List QueueEntry)
  | [] => none
  | e :: rest =>
    if e.user_id = user_id then some (f e :: rest)
    else (updateFirst user_id f rest).map (e :: ·)

/-- `add_to_queue` (queue_manager.py 54-83): a user already in the queue
gets their payload refreshed in place and their current 1-indexed position
returned; otherwise a fresh entry is appended and the new queue length
returned.  `now` is `time.time()`. -/
def add_to_queue (user_id chat_id : ℤ) (file_size_mb : ℚ)
    (file_id file_type : String) (metadata : ℕ) (queue_msg_id : Option ℕ)
    (now : ℚ) (q : List QueueEntry) : ℕ × List QueueEntry :=
  match updateFirst user_id
      (refreshEntry file_size_mb file_id file_type metadata queue_msg_id) q with
  | some q' => (get_queue_position user_id q', q')
  | none =>
    (q.length + 1,
      q ++ [⟨user_id, chat_id, now, file_size_mb, file_id, file_type,
        metadata, queue_msg_id⟩])

/-- `remove_from_queue` (queue_manager.py 86-97): pop the first entry with
this user id; report whether one was found. -/
def remove_from_queue (user_id : ℤ) :
    List QueueEntry → Bool × List QueueEntry
  | [] => (false, [])
  | e :: rest =>
    if e.user_id = user_id then (true, rest)
    else
      let r := remove_from_queue user_id rest
      (r.1, e :: r.2)

theorem updateFirst_none_iff (user_id : ℤ) (f : QueueEntry → QueueEntry) :
    ∀ q : List QueueEntry,
      updateFirst user_id f q = none ↔ ∀ e, e ∈ q → e.user_id ≠ user_id := by
  intro q
  induction q with
  | nil => simp [updateFirst]
  | cons e rest ih =>
    by_cases he : e.user_id = user_id
    · simp [updateFirst, he]
    · rw [updateFirst, if_neg he]
      constructor
      · intro h
        have hrest : updateFirst user_id f rest = none := by
          cases hu : updateFirst user_id f rest with
          | none => rfl
          | some r =>
            rw [hu] at h
            exact Option.noConfusion h
        intro e' hmem
        rcases List.mem_cons.mp hmem with rfl | hmem
        · exact he
        · exact ih.mp hrest e' hmem
      · intro h
        have hrest : updateFirst user_id f rest = none :=
          ih.mpr fun e' hm => h e' (List.mem_cons_of_mem e hm)
        rw [hrest]
        rfl

theorem updateFirst_some_map (user_id : ℤ) (f : QueueEntry → QueueEntry)
    (hf : ∀ e, (f e).user_id = e.user_id) :
    ∀ (q q' : List QueueEntry), updateFirst user_id f q = some q' →
      q'.map QueueEntry.user_id = q.map QueueEntry.user_id ∧
      (∀ e, e ∈ q' → e.user_id ≠ user_id → e ∈ q) := by
  intro q
  induction q with
  | nil =>
    intro q' h
    simp [updateFirst] at h
  | cons e rest ih =>
    intro q' h
    by_cases he : e.user_id = user_id
    · rw [updateFirst, if_pos he, Option.some_inj] at h
      subst h
      constructor
      · simp [hf, he]
      · intro e' he' hne
        rcases List.mem_cons.mp he' with rfl | hmem
        · exact absurd (hf e ▸ he) hne
        · exact List.mem_cons_of_mem e hmem
    · rw [updateFirst, if_neg he] at h
      cases hrest : updateFirst user_id f rest with
      | none =>
        rw [hrest] at h
        exact Option.noConfusion h
      | some r' =>
        rw [hrest] at h
        replace h : some (e :: r') = some q' := h
        rw [Option.some_inj] at h
        subst h
        obtain ⟨h1, h2⟩ := ih r' hrest
        constructor
        · simp [h1]
        · intro e' he' hne
          rcases List.mem_cons.mp he' with rfl | hmem
          · exact List.mem_cons_self e' rest
          · exact List.mem_cons_of_mem e (h2 e' hmem hne)

theorem get_queue_position_congr (user_id : ℤ) :
    ∀ (q q' : List QueueEntry),
      q'.map QueueEntry.user_id = q.map QueueEntry.user_id →
      get_queue_position user_id q' = get_queue_position user_id q := by
  intro q
  induction q with
  | nil =>
    intro q' h
    cases q' with
    | nil => rfl
    | cons e' rest' => simp at h
  | cons e rest ih =>
    intro q' h
    cases q' with
    | nil => simp at h
    | cons e' rest' =>
      simp only [List.map_cons, List.cons.injEq] at h
      rw [get_queue_position, get_queue_position, h.1, ih rest' h.2]

theorem remove_from_queue_sublist (user_id : ℤ) :
    ∀ q : List QueueEntry,
      ((remove_from_queue user_id q).2.map QueueEntry.user_id).Sublist
        (q.map QueueEntry.user_id) := by
  intro q
  induction q with
  | nil => simp [remove_from_queue]
  | cons e rest ih =>
    by_cases he : e.user_id = user_id
    · simp only [remove_from_queue, if_pos he]
      exact (List.sublist_cons_self _ _)
    · simp only [remove_from_queue, if_neg he, List.map_cons]
      exact List.Sublist.cons₂ _ ih

/-- C7: the Wait Queue keeps at most one entry per user.  A re-submission
by a queued user refreshes that entry in place: the sequence of user ids
(hence the user's rank and everyone else's relative order) is unchanged,
all other entries are untouched, and the returned position is the user's
existing 1-indexed position.  A new user is appended at the tail with
position equal to the new length.  Both `add_to_queue` and
`remove_from_queue` preserve distinctness of user ids. -/
theorem queue_single_entry_spec (user_id chat_id : ℤ) (file_size_mb : ℚ)
    (file_id file_type : String) (metadata : ℕ) (queue_msg_id : Option ℕ)
    (now : ℚ) (q : List QueueEntry) :
    ((∃ e, e ∈ q ∧ e.user_id = user_id) →
      (add_to_queue user_id chat_id file_size_mb file_id file_type metadata
          queue_msg_id now q).2.map QueueEntry.user_id =
        q.map QueueEntry.user_id ∧
      (add_to_queue user_id chat_id file_size_mb file_id file_type metadata
          queue_msg_id now q).1 = get_queue_position user_id q ∧
      (∀ e, e ∈ (add_to_queue user_id chat_id file_size_mb file_id file_type
          metadata queue_msg_id now q).2 → e.user_id ≠ user_id → e ∈ q)) ∧
    ((∀ e, e ∈ q → e.user_id ≠ user_id) →
      (add_to_queue user_id chat_id file_size_mb file_id file_type metadata
          queue_msg_id now q).2 =
        q ++ [⟨user_id, chat_id, now, file_size_mb, file_id, file_type,
          metadata, queue_msg_id⟩] ∧
      (add_to_queue user_id chat_id file_size_mb file_id file_type metadata
          queue_msg_id now q).1 = q.length + 1 ∧
      (add_to_queue user_id chat_id file_size_mb file_id file_type metadata
          queue_msg_id now q).1 =
        (add_to_queue user_id chat_id file_size_mb file_id file_type metadata
          queue_msg_id now q).2.length) ∧
    ((q.map QueueEntry.user_id).Nodup →
      ((add_to_queue user_id chat_id file_size_mb file_id file_type metadata
        queue_msg_id now q).2.map QueueEntry.user_id).Nodup) ∧
    ((q.map QueueEntry.user_id).Nodup →
      ((remove_from_queue user_id q).2.map QueueEntry.user_id).Nodup) := by
  have hf : ∀ e, (refreshEntry file_size_mb file_id file_type metadata
      queue_msg_id e).user_id = e.user_id := fun _ => rfl
  refine ⟨?_, ?_, ?_, fun hnd => (remove_from_queue_sublist user_id q).nodup hnd⟩
  · intro hex
    cases hup : updateFirst user_id
        (refreshEntry file_size_mb file_id file_type metadata queue_msg_id) q with
    | none =>
      obtain ⟨e, hmem, heq⟩ := hex
      exact absurd heq ((updateFirst_none_iff _ _ q).mp hup e hmem)
    | some q' =>
      obtain ⟨h1, h2⟩ := updateFirst_some_map user_id _ hf q q' hup
      simp only [add_to_queue, hup]
      exact ⟨h1, get_queue_position_congr user_id q q' h1, h2⟩
  · intro habs
    have hup : updateFirst user_id
        (refreshEntry file_size_mb file_id file_type metadata queue_msg_id) q =
        none := (updateFirst_none_iff _ _ q).mpr habs
    simp [add_to_queue, hup]
  · intro hnd
    cases hup : updateFirst user_id
        (refreshEntry file_size_mb file_id file_type metadata queue_msg_id) q with
    | none =>
      have habs := (updateFirst_none_iff _ _ q).mp hup
      simp only [add_to_queue, hup, List.map_append, List.map_cons,
        List.map_nil]
      rw [List.nodup_append]
      refine ⟨hnd, List.nodup_singleton _, ?_⟩
      intro a ha hb
      simp only [List.mem_singleton] at hb
      obtain ⟨e, hmem, heq⟩ := List.mem_map.mp ha
      exact habs e hmem (heq.trans hb)
    | some q' =>
      obtain ⟨h1, -⟩ := updateFirst_some_map user_id _ hf q q' hup
      simp only [add_to_queue, hup]
      exact h1 ▸ hnd

/-- Witness for C7: user 5 re-submits while queued behind user 3 — the id
sequence and their position are unchanged; fresh user 9 is appended at the
tail with position 3. -/
theorem queue_single_entry_spec_witness :
    (add_to_queue 5 50 12 "f2" "video" 1 none 1000
      [⟨3, 30, 0, 1, "a", "video", 0, none⟩,
       ⟨5, 50, 0, 2, "b", "video", 0, none⟩]).1 = 2 ∧
    (add_to_queue 5 50 12 "f2" "video" 1 none 1000
      [⟨3, 30, 0, 1, "a", "video", 0, none⟩,
       ⟨5, 50, 0, 2, "b", "video", 0, none⟩]).2.map QueueEntry.user_id =
      [3, 5] ∧
    (add_to_queue 9 90 7 "f3" "video" 2 none 1000
      [⟨3, 30, 0, 1, "a", "video", 0, none⟩,
       ⟨5, 50, 0, 2, "b", "video", 0, none⟩]).1 = 3 := by
  have h1 := (queue_single_entry_spec 5 50 12 "f2" "video" 1 none 1000
    [⟨3, 30, 0, 1, "a", "video", 0, none⟩,
     ⟨5, 50, 0, 2, "b", "video", 0, none⟩]).1
    ⟨⟨5, 50, 0, 2, "b", "video", 0, none⟩, by simp, rfl⟩
  have h2 := (queue_single_entry_spec 9 90 7 "f3" "video" 2 none 1000
    [⟨3, 30, 0, 1, "a", "video", 0, none⟩,
     ⟨5, 50, 0, 2, "b", "video", 0, none⟩]).2.1 (by
      intro e hmem
      rcases List.mem_cons.mp hmem with rfl | hmem
      · decide
      · rcases List.mem_cons.mp hmem with rfl | hmem
        · decide
        · simp at hmem)
  refine ⟨?_, ?_, ?_⟩
  · rw [h1.2.1]
    rfl
  · rw [h1.1]
    rfl
  · rw [h2.2.1]
    rfl

/-- `COOLDOWN_SECONDS` (config.py line 103). -/
def COOLDOWN_SECONDS : ℚ := 30

/-- `set_cooldown` (queue_manager.py 155-159): record the expiry
`now + COOLDOWN_SECONDS` for the user.  The cooldown dict is modelled as a
map from user id to optional expiry. -/
def set_cooldown (user_id : ℤ) (now : ℚ) (cd : ℤ → Option ℚ) :
    ℤ → Option ℚ :=
  fun u => if u = user_id then some (now + COOLDOWN_SECONDS) else cd u

/-- `is_on_cooldown` (queue_manager.py 162-172): no entry means not on
cooldown; an entry with `now ≥ expiry` is deleted (lazy clearing) and the
call returns false; otherwise true.  Returns the answer together with the
possibly-shrunk dict. -/
def is_on_cooldown (user_id : ℤ) (now : ℚ) (cd : ℤ → Option ℚ) :
    Bool × (ℤ → Option ℚ) :=
  match cd user_id with
  | none => (false, cd)
  | some expiry =>
    if expiry ≤ now then
      (false, fun u => if u = user_id then none else cd u)
    else (true, cd)

/-- C8: `is_on_cooldown` returns true iff the user's entry expires strictly
in the future; at exactly the expiry instant it returns false; and a call
that finds the entry expired deletes it before returning false, so a
subsequent lookup finds no entry (and also returns false). -/
theorem cooldown_lazy_expiry_spec (user_id : ℤ) (now : ℚ)
    (cd : ℤ → Option ℚ) :
    ((is_on_cooldown user_id now cd).1 = true ↔
      ∃ expiry, cd user_id = some expiry ∧ now < expiry) ∧
    (∀ expiry, cd user_id = some expiry → now = expiry →
      (is_on_cooldown user_id now cd).1 = false) ∧
    (∀ expiry, cd user_id = some expiry → expiry ≤ now →
      (is_on_cooldown user_id now cd).1 = false ∧
      (is_on_cooldown user_id now cd).2 user_id = none ∧
      (is_on_cooldown user_id now
        ((is_on_cooldown user_id now cd).2)).1 = false) := by
  refine ⟨?_, ?_, ?_⟩
  · cases hcd : cd user_id with
    | none =>
      simp only [is_on_cooldown, hcd]
      constructor
      · intro h
        exact absurd h (by simp)
      · rintro ⟨expiry, he, -⟩
        exact Option.noConfusion he
    | some expiry =>
      simp only [is_on_cooldown, hcd]
      by_cases hle : expiry ≤ now
      · rw [if_pos hle]
        constructor
        · intro h
          exact absurd h (by simp)
        · rintro ⟨e', he', hlt⟩
          rw [Option.some_inj] at he'
          subst he'
          exact absurd hlt (not_lt.mpr hle)
      · rw [if_neg hle]
        exact ⟨fun _ => ⟨expiry, rfl, lt_of_not_le hle⟩, fun _ => rfl⟩
  · intro expiry he hnow
    simp only [is_on_cooldown, he]
    rw [if_pos (le_of_eq hnow.symm)]
  · intro expiry he hle
    simp only [is_on_cooldown, he]
    rw [if_pos hle]
    refine ⟨rfl, by simp, ?_⟩
    simp [is_on_cooldown]

/-- Witness for C8: user 7's cooldown expires at time 100; checked exactly
at 100 the call reports false, deletes the entry, and a second lookup
still reports false. -/
theorem cooldown_lazy_expiry_spec_witness :
    (is_on_cooldown 7 100 fun u => if u = 7 then some 100 else none).1 =
      false ∧
    (is_on_cooldown 7 100 fun u => if u = 7 then some 100 else none).2 7 =
      none ∧
    (is_on_cooldown 7 100
      ((is_on_cooldown 7 100 fun u => if u = 7 then some 100 else none).2)).1 =
      false := by
  have h := (cooldown_lazy_expiry_spec 7 100
    (fun u => if u = 7 then some 100 else none)).2.2 100 (by simp)
    (le_refl 100)
  exact ⟨h.1, h.2.1, h.2.2⟩

/-- `MAX_VIDEO_SIZE_MB` (config.py line 34). -/
def MAX_VIDEO_SIZE_MB : ℚ := 100

/-- `MAX_VIDEO_DURATION_SECONDS` (config.py line 33). -/
def MAX_VIDEO_DURATION_SECONDS : ℕ := 30

/-- The synchronous outcome of one `handle_video` call (video.py 64-153):
which reply branch ran, or which processing routine the submission was
routed to. -/
inductive HVOutcome where
  | notAllowed : HVOutcome
  | cooldownNotice : HVOutcome
  | activeNotice : HVOutcome
  | noVideo : HVOutcome
  | tooLarge : HVOutcome
  | tooLong : HVOutcome
  | routedFace : HVOutcome
  | routedVoice : HVOutcome
deriving DecidableEq

/-- A Python exception escaping the handler. -/
inductive PyError where
  | typeError : PyError
deriving DecidableEq

/-- The per-call facts `handle_video` reads from the shared state:
the auth check, the cooldown check, an existing active task, the busy
gate, whether a video payload is present, its size and optional duration,
and the user's current mode. -/
structure HVInput where
  allowed : Bool
  on_cooldown : Bool
  has_active : Bool
  busy : Bool
  hasVideo : Bool
  file_size_mb : ℚ
  duration : Option ℕ
  mode_face : Bool
deriving DecidableEq

/-- `handle_video` (video.py 64-153) against the Wait Queue `q`.  Checks
run in source order: auth, cooldown, active task, busy gate, payload
presence, size, duration, then routing.  In the busy branch the source
calls `add_to_queue(user_id, chat_id, file_size_mb)` (video.py line 105),
passing 3 positional arguments to a function with 6 required parameters
(queue_manager.py line 54) — Python raises `TypeError` at the call, before
the queue is touched, so that branch is the raised error with `q`
unchanged.  A zero duration is falsy (`if ... and video.duration:`), so
the duration check is skipped for it. -/
def handle_video (inp : HVInput) (q : List QueueEntry) :
    Except PyError (HVOutcome × List QueueEntry) :=
  if inp.allowed = false then .ok (.notAllowed, q)
  else if inp.on_cooldown then .ok (.cooldownNotice, q)
  else if inp.has_active then .ok (.activeNotice, q)
  else if inp.busy then
    if inp.hasVideo = false then .ok (.noVideo, q)
    else .error .typeError
  else if inp.hasVideo = false then .ok (.noVideo, q)
  else if MAX_VIDEO_SIZE_MB < inp.file_size_mb then .ok (.tooLarge, q)
  else
    match inp.duration with
    | some d =>
      if d ≠ 0 ∧ MAX_VIDEO_DURATION_SECONDS < d then .ok (.tooLong, q)
      else .ok (if inp.mode_face then .routedFace else .routedVoice, q)
    | none => .ok (if inp.mode_face then .routedFace else .routedVoice, q)

/-- Counterexample to C3: an oversize (150 MB) video submitted while the
server is busy is not rejected synchronously — the size check is never
reached; the busy branch's malformed `add_to_queue` call raises
`TypeError` instead. -/
theorem admission_validation_counterexample :
    handle_video ⟨true, false, false, true, true, 150, some 10, true⟩ [] =
      .error .typeError ∧
    handle_video ⟨true, false, false, true, true, 150, some 10, true⟩ [] ≠
      .ok (.tooLarge, []) := by
  refine ⟨rfl, ?_⟩
  intro h
  rw [show handle_video ⟨true, false, false, true, true, 150, some 10, true⟩
    [] = .error .typeError from rfl] at h
  exact Except.noConfusion h

/-- C3 (amended): when the server is not busy at submission,
`handle_video` rejects an oversize or overlong video synchronously with
the queue unchanged; when the server is busy, the size/duration checks are
never reached — the busy branch raises `TypeError` from its malformed
`add_to_queue` call, so no Wait Queue entry is created on that path
either, but no rejection is issued. -/
theorem admission_validation_spec (inp : HVInput) (q : List QueueEntry)
    (hallow : inp.allowed = true) (hcd : inp.on_cooldown = false)
    (hact : inp.has_active = false) (hvid : inp.hasVideo = true) :
    (inp.busy = false → MAX_VIDEO_SIZE_MB < inp.file_size_mb →
      handle_video inp q = .ok (.tooLarge, q)) ∧
    (inp.busy = false → inp.file_size_mb ≤ MAX_VIDEO_SIZE_MB →
      ∀ d, inp.duration = some d → MAX_VIDEO_DURATION_SECONDS < d →
        handle_video inp q = .ok (.tooLong, q)) ∧
    (inp.busy = true → handle_video inp q = .error .typeError) := by
  refine ⟨?_, ?_, ?_⟩
  · intro hbusy hsize
    simp [handle_video, hallow, hcd, hact, hbusy, hvid, hsize]
  · intro hbusy hsize d hdur hlong
    have hd0 : d ≠ 0 := by
      intro h0
      rw [h0] at hlong
      exact absurd hlong (by simp [MAX_VIDEO_DURATION_SECONDS])
    simp [handle_video, hallow, hcd, hact, hbusy, hvid, not_lt.mpr hsize,
      hdur, hd0, hlong]
  · intro hbusy
    simp [handle_video, hallow, hcd, hact, hbusy, hvid]

/-- Witness for C3's amended claim: a 150 MB video on a non-busy server is
rejected as too large with the queue untouched, and a 40-second video of
admissible size is rejected as too long. -/
theorem admission_validation_spec_witness :
    handle_video ⟨true, false, false, false, true, 150, some 10, true⟩ [] =
      .ok (.tooLarge, []) ∧
    handle_video ⟨true, false, false, false, true, 50, some 40, true⟩ [] =
      .ok (.tooLong, []) := by
  constructor
  · exact (admission_validation_spec
      ⟨true, false, false, false, true, 150, some 10, true⟩ [] rfl rfl rfl
      rfl).1 rfl (by norm_num [MAX_VIDEO_SIZE_MB])
  · exact (admission_validation_spec
      ⟨true, false, false, false, true, 50, some 40, true⟩ [] rfl rfl rfl
      rfl).2.1 rfl (by norm_num [MAX_VIDEO_SIZE_MB]) 40 rfl
      (by norm_num [MAX_VIDEO_DURATION_SECONDS])

end KTBR
